import Mathlib

/-!
Verification development for `diffpy.utils` (`src/diffpy/utils/parsers/loaddata.py`).

The file embeds, as executable Lean definitions, the two parsers of the module:

* `loadData` — the single-block scanner (lines 19-155 of the source), with its
  helper `countcolumnsvalues`, the lexicographic `mincv` comparison, the header
  key/value accumulator and the delegation to `numpy.loadtxt`;
* `TextDataLoader._findDataBlocks` — the multi-block indexer (lines 158-289),
  with its line records (`nf`, `nw0`, `nw1`, `ok`), word records (`line`, `col`,
  `ok`, `value`), the `mincols` threshold, the boundary arrays
  `okb`/`oke`/`blockb`/`blocke`, the begin/end pairing, and the emission loop.

Files are represented by their `readlines` decomposition (`lines : List String`,
each entry a source line, normally ending in a newline); byte offsets recorded
by the scanner are represented by line indices (the recorded offsets are always
line starts).  The string→float primitive (`float(...)`) and `numpy.loadtxt`
are external utilities for the module; they are modelled here by `pyFloat?`
(the documented `float()` grammar) and `loadtxtModel` (the documented default
behaviour of `loadtxt`: skip blank lines, strip `#` comments, extract the
requested columns).

One deliberate modelling point: the source assigns the parsed float list to the
attribute `lw.values` (line 247) while the record field declared and read
everywhere else is `lw.value` (lines 233, 274, 279).  Assigning a non-field
attribute on a `numpy.recarray` does not touch the field, so the `value` field
keeps whatever the freshly allocated (uninitialised) memory held.  The model
therefore takes the content of that field as an arbitrary parameter
`uninit : Nat → PyFloat`, and keeps the actually-parsed list as
`deadValues` (the dead `values` attribute).
-/

/-- Python whitespace characters recognised by `str.split()` and `str.strip()`
(ASCII range). -/
def pyIsWs (c : Char) : Bool :=
  c = ' ' || c = '\t' || c = '\n' || c = '\r' || c = '\x0b' || c = '\x0c'

/-- `str.strip()` on a character list. -/
def pyStripL (cs : List Char) : List Char :=
  ((cs.dropWhile pyIsWs).reverse.dropWhile pyIsWs).reverse

/-- `str.strip()` on a string. -/
def pyStripS (s : String) : String :=
  String.mk (pyStripL s.toList)

/-- Value domain of Python's `float()`: finite values are kept exactly as
rationals, plus the infinities and NaN which `float()` also accepts. -/
inductive PyFloat where
  | finite (q : ℚ)
  | inf (neg : Bool)
  | nan
deriving DecidableEq

/-- Continuation of a Python digit group `digit (["_"] digit)*`: consumes
further digits, allowing a single underscore between two digits.  Returns the
accumulated value, the number of digits consumed and the unconsumed rest. -/
def pyDigitsAux : List Char → Nat → Nat → Nat × Nat × List Char
  | [], acc, n => (acc, n, [])
  | c :: cs, acc, n =>
    if c.isDigit then pyDigitsAux cs (acc * 10 + (c.toNat - 48)) (n + 1)
    else if c = '_' then
      match cs with
      | c2 :: cs2 =>
        if c2.isDigit then pyDigitsAux cs2 (acc * 10 + (c2.toNat - 48)) (n + 1)
        else (acc, n, c :: cs)
      | [] => (acc, n, c :: cs)
    else (acc, n, c :: cs)

/-- A Python digit group `digit (["_"] digit)*`; the digit count is `0` when
the input does not start with a digit. -/
def pyDigits : List Char → Nat × Nat × List Char
  | [] => (0, 0, [])
  | c :: cs => if c.isDigit then pyDigitsAux cs (c.toNat - 48) 1 else (0, 0, c :: cs)

/-- The unsigned numeric part of Python's `float()` grammar:
`digitpart ["." [digitpart]] [("e"|"E") [sign] digitpart]` (the input here is
already lowercased, so only `e` occurs).  Returns the value as an unreduced
numerator/denominator pair, or `none` when the input is not exactly such a
literal. -/
def pyNum (cs : List Char) : Option (Nat × Nat) :=
  let p1 := pyDigits cs
  let iv := p1.1
  let ind := p1.2.1
  let r1 := p1.2.2
  let p2 :=
    match r1 with
    | c :: t => if c = '.' then pyDigits t else (0, 0, r1)
    | [] => (0, 0, r1)
  let fv := p2.1
  let fnd := p2.2.1
  let r2 := p2.2.2
  if ind + fnd = 0 then none
  else
    let num := iv * 10 ^ fnd + fv
    let den := 10 ^ fnd
    match r2 with
    | [] => some (num, den)
    | c :: t =>
      if c = 'e' then
        let st :=
          match t with
          | '+' :: u => (false, u)
          | '-' :: u => (true, u)
          | u => (false, u)
        let p3 := pyDigits st.2
        if p3.2.1 = 0 || ¬p3.2.2 = [] then none
        else
          if st.1 then some (num, den * 10 ^ p3.1)
          else some (num * 10 ^ p3.1, den)
      else none

/-- Python's `float(s)` conversion: strip surrounding whitespace, read an
optional sign, then either `inf`/`infinity`/`nan` (case-insensitively) or a
decimal literal with optional fraction and exponent.  `none` models the
`ValueError` raised on any other input. -/
def pyFloat? (s : String) : Option PyFloat :=
  let cs := (pyStripL s.toList).map Char.toLower
  match cs with
  | [] => none
  | _ =>
    let sgn :=
      match cs with
      | '+' :: t => (false, t)
      | '-' :: t => (true, t)
      | t => (false, t)
    let neg := sgn.1
    let cs1 := sgn.2
    if cs1 = ['i', 'n', 'f'] || cs1 = ['i', 'n', 'f', 'i', 'n', 'i', 't', 'y'] then
      some (.inf neg)
    else if cs1 = ['n', 'a', 'n'] then some .nan
    else
      match pyNum cs1 with
      | some nd => some (.finite (mkRat (if neg then -(nd.1 : Int) else (nd.1 : Int)) nd.2))
      | none => none

/-- `isfloat` (source lines 294-302): `True` if `s` is convertible to float. -/
def isfloat (s : String) : Bool :=
  (pyFloat? s).isSome

/-- Helper for `pySplitWs`: the current incomplete token is accumulated in
reverse. -/
def pySplitWsAux : List Char → List Char → List String
  | [], [] => []
  | [], cur => [String.mk cur.reverse]
  | c :: cs, cur =>
    if pyIsWs c then
      match cur with
      | [] => pySplitWsAux cs []
      | _ => String.mk cur.reverse :: pySplitWsAux cs []
    else pySplitWsAux cs (c :: cur)

/-- Python `str.split()` with no separator: split on runs of whitespace,
discarding empty tokens. -/
def pySplitWs (s : String) : List String :=
  pySplitWsAux s.toList []

/-- Helper for `pySplitSep`: fuelled scan so that all recursion is structural;
the fuel is always at least the length of the remaining input. -/
def pySplitSepAux (sep : List Char) : Nat → List Char → List Char → List (List Char)
  | _, [], cur => [cur.reverse]
  | 0, l, cur => [cur.reverse ++ l]
  | fuel + 1, c :: cs, cur =>
    if sep.isPrefixOf (c :: cs) then
      cur.reverse :: pySplitSepAux sep fuel (List.drop (sep.length - 1) cs) []
    else pySplitSepAux sep fuel cs (c :: cur)

/-- Python `str.split(sep)` with an explicit non-empty separator: split at each
left-to-right occurrence of `sep`, keeping empty fields. -/
def pySplitSep (sep : String) (s : String) : List String :=
  if sep.toList = [] then [s]
  else (pySplitSepAux sep.toList s.toList.length s.toList []).map String.mk

/-- Python list indexing `xs[i]` with negative-index support; `none` models
`IndexError`. -/
def pyIndex? {α : Type} (xs : List α) (i : Int) : Option α :=
  if 0 ≤ i then xs.get? i.toNat
  else if (-i).toNat ≤ xs.length then xs.get? (xs.length - (-i).toNat) else none

/-- Python `max` over a non-empty list of ints (head and tail given). -/
def pyMaxZ (c : Int) (cs : List Int) : Int :=
  cs.foldl max c

/-- Python `min` over a non-empty list of ints (head and tail given). -/
def pyMinZ (c : Int) (cs : List Int) : Int :=
  cs.foldl min c

/-- Python `"".join(...)`: concatenation of a list of strings. -/
def concatL : List String → String
  | [] => ""
  | s :: rest => s ++ concatL rest

/-- Python slice-then-join `"".join(lines[a:b])` (slices clamp, and an empty
slice results when `b ≤ a`). -/
def sliceStr (lines : List String) (a b : Nat) : String :=
  concatL ((lines.drop a).take (b - a))

/-- Python exception kinds raised by the embedded code paths. -/
inductive PyErr where
  | indexError
  | valueError
  | assertionError
deriving DecidableEq

/-- Result of running a fallible embedded computation. -/
inductive PRes (α : Type) where
  | ok (a : α)
  | err (e : PyErr)
deriving DecidableEq

namespace LD

/-- Lexicographic comparison of the `(nc, nv)` tuples, as Python compares the
tuples `ncv < mincv` (source line 127). -/
def tupLt (a b : Nat × Nat) : Bool :=
  a.1 < b.1 || (a.1 = b.1 && a.2 < b.2)

/-- `while words and not words[-1].strip(): words.pop(-1)` (source lines
76-77): remove trailing blank columns. -/
def dropTrailingBlanks (ws : List String) : List String :=
  (ws.reverse.dropWhile (fun w => pyStripS w = "")).reverse

/-- `countcolumnsvalues(line)` (source lines 72-85) for the default
whitespace delimiter: split the line, drop trailing blank tokens, and return
`(nc, nv)` where `nc` is the token count and `nv` the number of float values
read (all tokens, or the tokens at the `usecols` positions with Python
negative-index semantics); any conversion or index failure yields `(0, 0)`. -/
def countcolumnsvalues (usecols : Option (List Int)) (line : String) : Nat × Nat :=
  let words := dropTrailingBlanks (pySplitWs line)
  let nc := words.length
  match usecols with
  | none => if words.all (fun w => (pyFloat? w).isSome) then (nc, nc) else (0, 0)
  | some cols =>
    if cols.all (fun i =>
        match pyIndex? words i with
        | some w => (pyFloat? w).isSome
        | none => false) then
      (nc, cols.length)
    else (0, 0)

/-- `mincv` (source lines 64-69): `(1, 1)`, or for a non-empty `usecols`
`(max(-min(usecols), max(usecols) + 1), len(set(usecols)))`. -/
def mincvOf (usecols : Option (List Int)) : Nat × Nat :=
  match usecols with
  | some (c :: cs) =>
    ((max (-(pyMinZ c cs)) (pyMaxZ c cs + 1)).toNat, ((c :: cs).dedup).length)
  | _ => (1, 1)

/-- Header values are floats when convertible, otherwise the original string
(source lines 119-121). -/
inductive HVal where
  | num (f : PyFloat)
  | str (s : String)
deriving DecidableEq

/-- Insertion-ordered mapping used for the header data. -/
abbrev HMap : Type := List (String × HVal)

/-- Python `dict.update(...)` with a single pair: replace the value in place if
the key exists, else append. -/
def dictUpdate (m : HMap) (k : String) (v : HVal) : HMap :=
  if m.any (fun p => p.1 = k) then
    m.map (fun p => if p.1 = k then (k, v) else p)
  else m ++ [(k, v)]

/-- Per-line header processing of `loadData` (source lines 96-122): split the
line on `hdel`; require exactly two parts, both non-blank after stripping;
drop the pair when the stripped key begins with any tag of `hignore`;
otherwise store the value, as a float when `isfloat` accepts it. -/
def headerStep (hdel : String) (hignore : Option (List String)) (hd : HMap)
    (line : String) : HMap :=
  let hpair := pySplitSep hdel line
  match hpair with
  | [a, b] =>
    let k := pyStripS a
    let v := pyStripS b
    if k = "" || v = "" then hd
    else if (hignore.getD []).any (fun tag => tag.toList.isPrefixOf k.toList) then hd
    else dictUpdate hd k (if isfloat v then .num ((pyFloat? v).getD .nan) else .str v)
  | _ => hd

/-- State of the datablock scan of `loadData` (source lines 89-91): candidate
start (as a line index), the `(nc, nv)` shape of the candidate block, the row
counter, plus the header accumulator. -/
structure LDState where
  start : Option Nat := none
  ncvblock : Option (Nat × Nat) := none
  nrows : Nat := 0
  hdata : HMap := []
deriving DecidableEq

/-- Static configuration of a `loadData` call (whitespace data delimiter). -/
structure LDArgs where
  minrows : Nat := 10
  headers : Bool := false
  hdel : String := "="
  hignore : Option (List String) := none
  usecols : Option (List Int) := none
deriving DecidableEq

/-- The line loop of `loadData` (source lines 92-139).  `i` is the index of the
next line; returns the final state and the number of lines consumed (the scan
breaks as soon as the row counter reaches `minrows`). -/
def ldScanGo (args : LDArgs) (mincv : Nat × Nat) : List String → Nat → LDState → LDState × Nat
  | [], i, st => (st, i)
  | line :: rest, i, st =>
    let hd := if args.headers then headerStep args.hdel args.hignore st.hdata line else st.hdata
    let ncv := countcolumnsvalues args.usecols line
    if tupLt ncv mincv then
      ldScanGo args mincv rest (i + 1) { st with hdata := hd, start := none }
    else
      let reset := st.start = none || ¬st.ncvblock = some ncv
      let st3 : LDState :=
        { start := if reset then some i else st.start,
          ncvblock := if reset then some ncv else st.ncvblock,
          nrows := (if reset then 0 else st.nrows) + 1,
          hdata := hd }
      if args.minrows ≤ st3.nrows then (st3, i + 1)
      else ldScanGo args mincv rest (i + 1) st3

/-- The whole scan of `loadData` over the file's lines. -/
def ldScan (args : LDArgs) (lines : List String) : LDState × Nat :=
  ldScanGo args (mincvOf args.usecols) lines 0 {}

/-- Text before the first `#` of a line (the default `comments` handling of
`numpy.loadtxt`). -/
def stripComment (s : String) : String :=
  String.mk (s.toList.takeWhile (fun c => ¬c = '#'))

/-- Model of the external `numpy.loadtxt` utility on a list of lines with the
default whitespace delimiter: skip lines that are blank after comment
stripping, extract the requested columns, parse each as a float; any missing
column or failed parse is an error. -/
def loadtxtModel (usecols : List Int) : List String → PRes (List (List PyFloat))
  | [] => .ok []
  | line :: rest =>
    let ws := pySplitWs (stripComment line)
    if ws = [] then loadtxtModel usecols rest
    else
      match usecols.mapM (fun i => (pyIndex? ws i).bind pyFloat?) with
      | none => .err .valueError
      | some row =>
        match loadtxtModel usecols rest with
        | .ok rows => .ok (row :: rows)
        | .err e => .err e

/-- Outcome of `loadData`: a header mapping (when `headers` is enabled) or a
numeric data block (empty when no block was found). -/
inductive LDOut where
  | headerMap (h : HMap)
  | data (rows : List (List PyFloat))
deriving DecidableEq

/-- `loadData` (source lines 19-155) on a file given by its lines: run the
scan; in headers mode return the header mapping; otherwise return an empty
array when no candidate start is left, else parse from the recorded start with
`loadtxt`, defaulting `usecols` to all columns of the detected width.
A `usecols` argument that is an empty sequence makes `min(usecols)` raise. -/
def loadDataModel (args : LDArgs) (lines : List String) : PRes LDOut :=
  if args.usecols = some [] then .err .valueError
  else
    let r := ldScan args lines
    let st := r.1
    if args.headers then .ok (.headerMap st.hdata)
    else
      match st.start with
      | none => .ok (.data [])
      | some s =>
        let nc := (st.ncvblock.getD (0, 0)).1
        let cols := args.usecols.getD ((List.range nc).map (fun k => (k : Int)))
        match loadtxtModel cols (lines.drop s) with
        | .ok rows => .ok (.data rows)
        | .err e => .err e

end LD

namespace TDL

/-- `self._splitlines` (source line 209): whitespace-split of every line. -/
def splitlines (lines : List String) : List (List String) :=
  lines.map pySplitWs

/-- `lr.nf` (source line 227): token count of line `i`. -/
def nf (lines : List String) (i : Nat) : Nat :=
  ((splitlines lines).getD i []).length

/-- `lr.nw1` (source line 228): cumulative token count through line `i`
(index of one past the last word of line `i`). -/
def nw1 (lines : List String) (i : Nat) : Nat :=
  (((List.range (i + 1)).map (nf lines))).sum

/-- `lr.nw0` (source line 229): index of the first word of line `i`. -/
def nw0 (lines : List String) (i : Nat) : Nat :=
  nw1 lines i - nf lines i

/-- `self._words` (source line 208): `''.join(lines).split()`. -/
def wordsOf (lines : List String) : List String :=
  pySplitWs (concatL lines)

/-- Total number of words of the file. -/
def nwords (lines : List String) : Nat :=
  (wordsOf lines).length

/-- Word number `w` of the file (out-of-range gives `""`, never used in range). -/
def wordAt (lines : List String) (w : Nat) : String :=
  (wordsOf lines).getD w ""

/-- `lw.ok` (source lines 239-245): word `w` parses as a float. -/
def wordOk (lines : List String) (w : Nat) : Bool :=
  (pyFloat? (wordAt lines w)).isSome

/-- The parsed float list built at source lines 240-245 and assigned to the
dead attribute `lw.values` (source line 247): the parsed value of word `w`,
with `0.0` kept for words that fail to parse. -/
def deadValues (lines : List String) (w : Nat) : PyFloat :=
  (pyFloat? (wordAt lines w)).getD (.finite 0)

/-- The distinct indices at which `n1[lr.nw1[:-1]] = True` sets a mark (source
lines 235-236); duplicate indices (caused by empty lines) collapse. -/
def marks (lines : List String) : List Nat :=
  (((List.range (lines.length - 1)).map (nw1 lines))).dedup

/-- `lw.line` (source line 237): `n1.cumsum()` at word `w` counts the distinct
marks at positions `≤ w`. -/
def wordLine (lines : List String) (w : Nat) : Nat :=
  (marks lines).countP (fun v => decide (v ≤ w))

/-- `lw.col` (source line 238): `lw.idx - lr.nw0[lw.line]` as a machine int. -/
def wordCol (lines : List String) (w : Nat) : Int :=
  (w : Int) - (nw0 lines (wordLine lines w) : Int)

/-- `lr.ok` after the pruning of source lines 246-254: with no column
selection a line is bad when any word attributed to it fails to parse; with a
selection, when some selected column index equals the attributed column of a
failing word. -/
def lineOk (lines : List String) (usecols : Option (List Int)) (i : Nat) : Bool :=
  match usecols with
  | none =>
    !((List.range (nwords lines)).any (fun w =>
      !wordOk lines w && wordLine lines w = i))
  | some cols =>
    !((List.range (nwords lines)).any (fun w =>
      !wordOk lines w && wordLine lines w = i && cols.any (fun c => wordCol lines w = c)))

/-- `mincols` (source lines 215-218): `1`, raised for a non-empty selection to
`max(selected) + 1` and to `abs(min(selected))`. -/
def mincolsZ (usecols : Option (List Int)) : Int :=
  match usecols with
  | some (c :: cs) => max (max 1 (pyMaxZ c cs + 1)) |pyMinZ c cs|
  | _ => 1

/-- `lr1 = lr[lr.nf >= mincols]` (source line 255): the surviving line indices
in order. -/
def lr1 (lines : List String) (usecols : Option (List Int)) : List Nat :=
  (List.range lines.length).filter (fun i => mincolsZ usecols ≤ (nf lines i : Int))

/-- Number of surviving lines. -/
def mOf (lines : List String) (usecols : Option (List Int)) : Nat :=
  (lr1 lines usecols).length

/-- Original line index of surviving line `k`. -/
def idx1 (lines : List String) (usecols : Option (List Int)) (k : Nat) : Nat :=
  (lr1 lines usecols).getD k 0

/-- `ok` flag of surviving line `k`. -/
def ok1 (lines : List String) (usecols : Option (List Int)) (k : Nat) : Bool :=
  lineOk lines usecols (idx1 lines usecols k)

/-- Token count of surviving line `k`. -/
def nf1 (lines : List String) (usecols : Option (List Int)) (k : Nat) : Nat :=
  nf lines (idx1 lines usecols k)

/-- `okb` (source line 256) at position `k` of `0..m` (for `m ≥ 1`). -/
def okbAt (lines : List String) (usecols : Option (List Int)) (k : Nat) : Bool :=
  let m := mOf lines usecols
  if k = 0 then ok1 lines usecols 0
  else if k < m then ok1 lines usecols k && !ok1 lines usecols (k - 1)
  else false

/-- `blockb` (source line 258) at position `k` of `0..m` (for `m ≥ 1`). -/
def blockbAt (lines : List String) (usecols : Option (List Int)) (k : Nat) : Bool :=
  let m := mOf lines usecols
  if k = 0 then true
  else if k < m then !(nf1 lines usecols k = nf1 lines usecols (k - 1))
  else false

/-- `oke` (source line 257) at position `k` of `0..m` (for `m ≥ 1`). -/
def okeAt (lines : List String) (usecols : Option (List Int)) (k : Nat) : Bool :=
  let m := mOf lines usecols
  if k = 0 then false
  else if k < m then !ok1 lines usecols k && ok1 lines usecols (k - 1)
  else ok1 lines usecols (m - 1)

/-- `blocke` (source line 259) at position `k` of `0..m` (for `m ≥ 1`). -/
def blockeAt (lines : List String) (usecols : Option (List Int)) (k : Nat) : Bool :=
  let m := mOf lines usecols
  if k = 0 then false
  else if k < m then blockbAt lines usecols k
  else true

/-- `beg = numpy.nonzero(okb | blockb)[0]` (source line 260).  When `m = 0`
the arrays have broadcast lengths 1 and 2 and the nonzero positions are `[0]`
and `[1]` respectively. -/
def begList (lines : List String) (usecols : Option (List Int)) : List Nat :=
  let m := mOf lines usecols
  if m = 0 then [0]
  else (List.range (m + 1)).filter
    (fun k => okbAt lines usecols k || blockbAt lines usecols k)

/-- `end = numpy.nonzero(oke | blocke)[0]` (source line 261). -/
def endList (lines : List String) (usecols : Option (List Int)) : List Nat :=
  let m := mOf lines usecols
  if m = 0 then [1]
  else (List.range (m + 1)).filter
    (fun k => okeAt lines usecols k || blockeAt lines usecols k)

/-- `begend = numpy.transpose([beg, end - 1])[goodrows]` (source lines
262-265): in-order pairs with row count at least `minrows`, with the end made
inclusive. -/
def begendList (lines : List String) (usecols : Option (List Int)) (minrows : Nat) :
    List (Nat × Nat) :=
  (((begList lines usecols).zip (endList lines usecols)).filter
    (fun p => minrows ≤ p.2 - p.1)).map (fun p => (p.1, p.2 - 1))

/-- Length of the numpy strided slice `[a : b : w]` (with `w ≥ 1`). -/
def stridedLen (a b w : Nat) : Nat :=
  if a < b then (b - a + (w - 1)) / w else 0

/-- `data = numpy.reshape(lw.value[bb1.nw0:ee1.nw1], (-1, bb1.nf))` (source
line 274): the `value` field slice — uninitialised memory, see the header
comment — reshaped to rows of width `bb1.nf`; reshape fails unless the slice
length is a multiple of the width. -/
def extractNone (lines : List String) (usecols : Option (List Int))
    (uninit : Nat → PyFloat) (db de : Nat) : PRes (List (List PyFloat)) :=
  let bb := idx1 lines usecols db
  let ee := idx1 lines usecols de
  let w := nf lines bb
  let a := min (nw0 lines bb) (nwords lines)
  let L := min (nw1 lines ee) (nwords lines) - a
  if w = 0 then .err .valueError
  else if ¬L % w = 0 then .err .valueError
  else .ok ((List.range (L / w)).map (fun r =>
    (List.range w).map (fun c => uninit (a + r * w + c))))

/-- The `usecols` branch of the extraction (source lines 276-280):
`tdata = numpy.empty((len(usecols), dend - dbeg))`, then for each selected `j`
(taken modulo `bb1.nf`) the strided slice `lw.value[bb1.nw0 + j : ee1.nw1 :
bb1.nf]` is broadcast into a row of `tdata`; broadcasting fails unless the
slice length equals `dend - dbeg` or is `1`.  The result is transposed. -/
def extractCols (lines : List String) (usecols : Option (List Int))
    (uninit : Nat → PyFloat) (cols : List Int) (db de : Nat) :
    PRes (List (List PyFloat)) :=
  let bb := idx1 lines usecols db
  let ee := idx1 lines usecols de
  let w := nf lines bb
  if w = 0 then .err .valueError
  else if de < db then .err .valueError
  else
    let T := de - db
    let stop := min (nw1 lines ee) (nwords lines)
    let colStarts := cols.map (fun j =>
      min (nw0 lines bb + (j.emod (w : Int)).toNat) (nwords lines))
    if colStarts.all (fun a => stridedLen a stop w = T || stridedLen a stop w = 1) then
      .ok ((List.range T).map (fun r => colStarts.map (fun a =>
        if stridedLen a stop w = 1 then uninit a else uninit (a + r * w))))
    else .err .valueError

/-- The emission loop of `_findDataBlocks` (source lines 266-282): thread
`hbeg` through the accepted pairs, producing the `(header, dataset)` entries;
`lr1[dbeg]` on an out-of-range index raises. -/
def emitGo (lines : List String) (usecols : Option (List Int))
    (uninit : Nat → PyFloat) :
    List (Nat × Nat) → Nat → PRes (List (String × List (List PyFloat)) × Nat)
  | [], hbeg => .ok ([], hbeg)
  | (db, de) :: rest, hbeg =>
    let m := mOf lines usecols
    if db < m && de < m then
      let bb := idx1 lines usecols db
      let ee := idx1 lines usecols de
      let header := sliceStr lines hbeg bb
      let dat :=
        match usecols with
        | none => extractNone lines usecols uninit db de
        | some cols => extractCols lines usecols uninit cols db de
      match dat with
      | .err e => .err e
      | .ok mat =>
        match emitGo lines usecols uninit rest (ee + 1) with
        | .err e => .err e
        | .ok (es, hb) => .ok ((header, mat) :: es, hb)
    else .err .indexError

/-- `TextDataLoader._findDataBlocks` (source lines 214-289) on the lines of a
file: build the line and word records, prune, detect boundaries, pair them,
keep pairs with enough rows, emit `(header, dataset)` entries and possibly one
final entry holding the trailing text with a zero-row dataset.  The initial
mark assignment `n1[lr.nw1[:-1]] = True` raises `IndexError` when a mark index
reaches the word count (a file whose last line has no token). -/
def findDataBlocks (minrows : Nat) (usecols : Option (List Int))
    (uninit : Nat → PyFloat) (lines : List String) :
    PRes (List (String × List (List PyFloat))) :=
  let n := lines.length
  if (List.range (n - 1)).any (fun i => nwords lines ≤ nw1 lines i) then .err .indexError
  else
    let beg := begList lines usecols
    let en := endList lines usecols
    if ¬beg.length = en.length then .err .valueError
    else if (beg.zip en).any (fun p => p.2 < p.1) then .err .assertionError
    else
      match emitGo lines usecols uninit (begendList lines usecols minrows) 0 with
      | .err e => .err e
      | .ok (es, hbeg) =>
        .ok (es ++ (if hbeg < n then [(sliceStr lines hbeg n, [])] else []))

end TDL

namespace LD

/-- A line is acceptable to the scan when its `(nc, nv)` is not
lexicographically below `mincv` (out-of-range indices are unacceptable). -/
def accAt (usecols : Option (List Int)) (lines : List String) (i : Nat) : Bool :=
  decide (i < lines.length) &&
    !tupLt (countcolumnsvalues usecols (lines.getD i "")) (mincvOf usecols)

/-- The `(nc, nv)` classification of line `i`. -/
def ncvAt (usecols : Option (List Int)) (lines : List String) (i : Nat) : Nat × Nat :=
  countcolumnsvalues usecols (lines.getD i "")

/-- Length of the maximal run of acceptable lines with a constant `(nc, nv)`
ending at line `i` (inclusive); `0` when line `i` is not acceptable. -/
def runLenAt (usecols : Option (List Int)) (lines : List String) : Nat → Nat
  | 0 => if accAt usecols lines 0 then 1 else 0
  | i + 1 =>
    if accAt usecols lines (i + 1) then
      if accAt usecols lines i && decide (ncvAt usecols lines i = ncvAt usecols lines (i + 1)) then
        runLenAt usecols lines i + 1
      else 1
    else 0

/-- The scan's break condition holds at line `i`: the line is acceptable and
its run has reached `minrows` rows. -/
def qualAtB (usecols : Option (List Int)) (lines : List String) (N i : Nat) : Bool :=
  accAt usecols lines i && decide (N ≤ runLenAt usecols lines i)

/-- First index at or after `i` (within `fuel` steps) where the break
condition holds. -/
def firstQualAux (usecols : Option (List Int)) (lines : List String) (N : Nat) :
    Nat → Nat → Option Nat
  | _, 0 => none
  | i, fuel + 1 =>
    if qualAtB usecols lines N i then some i
    else firstQualAux usecols lines N (i + 1) fuel

/-- First line index at which the scan's break condition holds, if any. -/
def firstQual (usecols : Option (List Int)) (lines : List String) (N : Nat) : Option Nat :=
  firstQualAux usecols lines N 0 lines.length

/-- Claim-side notion of a qualifying block: `N` consecutive lines starting at
`i`, all acceptable with the same `(nc, nv)` classification. -/
def specRunB (usecols : Option (List Int)) (lines : List String) (N i : Nat) : Bool :=
  decide (i + N ≤ lines.length) &&
    (List.range N).all (fun k =>
      accAt usecols lines (i + k) &&
        decide (ncvAt usecols lines (i + k) = ncvAt usecols lines i))

/-- Invariant tying a scan state to the classification of the previously
processed line: before line `i`, the candidate start, row counter and shape
describe the acceptable run ending at line `i - 1` (no candidate when line
`i - 1` was not acceptable, and the initial state before line `0`). -/
def InvAt (usecols : Option (List Int)) (lines : List String) (i : Nat) (st : LDState) : Prop :=
  (i = 0 → st.start = none ∧ st.ncvblock = none) ∧
  (∀ p, i = p + 1 →
    (accAt usecols lines p = true →
      st.start = some (i - runLenAt usecols lines p) ∧
      st.nrows = runLenAt usecols lines p ∧
      st.ncvblock = some (ncvAt usecols lines p)) ∧
    (accAt usecols lines p = false → st.start = none))

/-- Claim-side condition for a header line: splitting on the delimiter yields
exactly two parts, both non-blank after trimming, and the trimmed key does not
start with any ignored prefix. -/
def specHeaderCond (hdel : String) (hignore : Option (List String)) (line : String) : Bool :=
  match pySplitSep hdel line with
  | [a, b] =>
    !(pyStripS a = "") && !(pyStripS b = "") &&
      !((hignore.getD []).any (fun tag => tag.toList.isPrefixOf (pyStripS a).toList))
  | _ => false

/-- Trimmed key of a header line (first part of the split). -/
def specHKey (hdel : String) (line : String) : String :=
  pyStripS ((pySplitSep hdel line).getD 0 "")

/-- Stored value of a header line: the float conversion of the trimmed value
string when convertible, else the string itself. -/
def specHVal (hdel : String) (line : String) : HVal :=
  let v := pyStripS ((pySplitSep hdel line).getD 1 "")
  if isfloat v then .num ((pyFloat? v).getD .nan) else .str v

/-- Keys of a header mapping. -/
def hkeys (m : HMap) : List String :=
  m.map Prod.fst

end LD

namespace TDL

/-- Claim-side dataset of an accepted block `(db, de)` with no column
selection: the parsed float values of the block's word range, reshaped to rows
of the block's width. -/
def specMatrixNone (lines : List String) (usecols : Option (List Int)) (db de : Nat) :
    List (List PyFloat) :=
  let bb := idx1 lines usecols db
  let ee := idx1 lines usecols de
  let w := nf lines bb
  let a := nw0 lines bb
  let L := nw1 lines ee - a
  (List.range (L / w)).map (fun r =>
    (List.range w).map (fun c => deadValues lines (a + r * w + c)))

/-- Claim-side invariant of C3: within every accepted block all rows have the
block's token count. -/
def blocksSameWidth (lines : List String) (usecols : Option (List Int)) (minrows : Nat) : Bool :=
  (begendList lines usecols minrows).all (fun p =>
    (List.range (p.2 + 1 - p.1)).all (fun t =>
      nf1 lines usecols (p.1 + t) = nf1 lines usecols p.1))

/-- Claim-side invariant of C3: within every accepted block, every cell
required by the active column selection (every token with no selection, the
tokens at the selected positions modulo the row width otherwise) parses as a
float. -/
def requiredCellsParse (lines : List String) (usecols : Option (List Int)) (minrows : Nat) : Bool :=
  (begendList lines usecols minrows).all (fun p =>
    (List.range (p.2 + 1 - p.1)).all (fun t =>
      let toks := (splitlines lines).getD (idx1 lines usecols (p.1 + t)) []
      match usecols with
      | none => toks.all (fun wd => (pyFloat? wd).isSome)
      | some cols =>
        cols.all (fun c =>
          0 < toks.length &&
            (pyFloat? (toks.getD ((c.emod (toks.length : Int)).toNat) "")).isSome)))

/-- The accepted blocks are non-overlapping, in source order and well formed:
starting from header position `h`, each pair has in-range surviving indices in
order, and starts at or after the current header position. -/
def orderedB (lines : List String) (usecols : Option (List Int)) :
    Nat → List (Nat × Nat) → Bool
  | _, [] => true
  | h, (db, de) :: rest =>
    decide (db < mOf lines usecols) && decide (de < mOf lines usecols) &&
      decide (db ≤ de) && decide (h ≤ idx1 lines usecols db) &&
      orderedB lines usecols (idx1 lines usecols de + 1) rest

/-- Verbatim source text of the lines of each accepted block. -/
def blockTexts (lines : List String) (usecols : Option (List Int)) (minrows : Nat) :
    List String :=
  (begendList lines usecols minrows).map (fun p =>
    sliceStr lines (idx1 lines usecols p.1) (idx1 lines usecols p.2 + 1))

/-- Header texts as the claim describes them: the source text between the end
of the previous accepted block (or the file start) and each block's start. -/
def specHeaders (lines : List String) (usecols : Option (List Int)) :
    Nat → List (Nat × Nat) → List String
  | _, [] => []
  | h, (db, de) :: rest =>
    sliceStr lines h (idx1 lines usecols db) ::
      specHeaders lines usecols (idx1 lines usecols de + 1) rest

/-- The claim's concatenation: every emitted header followed by the text of
its block (the trailing header-only entry, if present, is followed by nothing). -/
def rtOf (minrows : Nat) (usecols : Option (List Int)) (uninit : Nat → PyFloat)
    (lines : List String) : Option String :=
  match findDataBlocks minrows usecols uninit lines with
  | .ok es =>
    some (concatL (List.zipWith (fun h b => h ++ b) (es.map Prod.fst)
      (blockTexts lines usecols minrows ++ [""])))
  | .err _ => none

/-- Header position after the last accepted block: one past its last line, or
the file start when no block is accepted. -/
def lastHbeg (lines : List String) (usecols : Option (List Int)) (minrows : Nat) : Nat :=
  match (begendList lines usecols minrows).getLast? with
  | none => 0
  | some p => idx1 lines usecols p.2 + 1

/-- Source lines remain after the last accepted block. -/
def trailRemainB (lines : List String) (usecols : Option (List Int)) (minrows : Nat) : Bool :=
  decide (lastHbeg lines usecols minrows < lines.length)

/-- The trailing text: all source lines after the last accepted block. -/
def trailTextOf (lines : List String) (usecols : Option (List Int)) (minrows : Nat) : String :=
  sliceStr lines (lastHbeg lines usecols minrows) lines.length

end TDL

/-- Concrete input of C1: ten identical two-float rows. -/
def lines1 : List String := List.replicate 10 "1 2\n"

/-- Concrete input of C2's counterexample: one bad line, then a three-row run
still open at end of file. -/
def linesC2 : List String := ["x\n", "1 2\n", "1 2\n", "1 2\n"]

/-- Concrete input of C2's witness: a qualifying two-row run starting at line
1, with a further acceptable line after it. -/
def linesW2 : List String := ["a\n", "1 2\n", "1 2\n", "9 9\n"]

/-- Concrete input of C3: ten float rows, an empty line, then a non-float row
whose words get attributed to the empty line. -/
def lines3 : List String := List.replicate 10 "1 2\n" ++ ["\n", "x y\n"]

/-- Concrete input of C4's counterexample: non-float first and last lines with
the same width as the data rows. -/
def lines4 : List String := ["a b\n", "1 2\n", "1 2\n", "t t\n"]

/-- Concrete input of C4's witness: a header line of a different width, then
two data rows. -/
def linesW4 : List String := ["# h q\n", "3 4\n", "3 4\n"]

/-- Concrete input of C5's counterexample: a two-row run at end of file. -/
def linesC5 : List String := ["5 5\n", "5 5\n"]

/-- Concrete input of C5's witness: no acceptable line at all. -/
def linesW5 : List String := ["foo\n", "bar\n"]

/-- Concrete input of C6's scenario: three header lines, then twelve two-float
rows. -/
def linesS6 : List String :=
  ["qmax = 10\n", "# comment\n", "[defaults]\n"] ++ List.replicate 12 "1.0 2.0\n"

/-- Concrete input of C6's counterexample: a well-formed header line placed
after a ten-row data block. -/
def linesX6 : List String := List.replicate 10 "1 1\n" ++ ["a = b\n"]

/-- Concrete input of C7's witness: a ten-row block and a one-word trailer. -/
def lines7 : List String := List.replicate 10 "9 8\n" ++ ["end\n"]

/-- Concrete input of C7's counterexample: a one-token line followed by a
token-less line. -/
def linesT7 : List String := ["1\n", "\n"]

/-- Concrete input of C8: a two-row block read with `usecols = (0,)`. -/
def lines8 : List String := ["1 2\n", "1 2\n"]

/-- Concrete input of C9's witness. -/
def lines9 : List String := ["a\n", "1 2 3 4\n"]

/-- Concrete input of C10, part one: an `ok` line followed by a same-width
non-`ok` line, giving one begin position but two end positions. -/
def linesA : List String := ["1 2\n", "3 x\n"]

/-- Concrete input of C10, part two: alternating `ok` and non-`ok` lines with
width changes placed so that the sorted begin/end lists pair inconsistently
and produce a negative row count. -/
def linesB : List String :=
  ["1\n", "x\n", "1 2\n", "x 2\n", "1 2 3\n", "x 2 3\n", "1 2 3\n",
   "x 2 3 4\n", "1 2 3 4\n", "x 2 3 4 5\n", "1 2 3 4 5\n"]

/-- An arbitrary concrete content for the uninitialised `value` field. -/
def uZ : Nat → PyFloat := fun _ => .finite 0

/-- Another concrete content for the uninitialised `value` field. -/
def u7 : Nat → PyFloat := fun _ => .finite 7

namespace LD

/-- Sequential header accumulation over a list of lines. -/
def headerFold (hdel : String) (hignore : Option (List String)) (m : HMap)
    (ls : List String) : HMap :=
  ls.foldl (headerStep hdel hignore) m

end LD

/-- C1: the claim states that each accepted block's dataset consists of the
parsed float values of the block's tokens (reshaped to rows × width).  On the
code this fails: the dataset is read from the `value` field that the function
never assigns (the parsed values go to the dead attribute `values`), so the
output follows the uninitialised memory, not the parsed values.  At the input
`lines1` the accepted block is `(0, 9)`, the claimed dataset is ten rows of
`[1, 2]`, but with the uninitialised field holding sevens the emitted dataset
is ten rows of `[7, 7]`. -/
theorem c1_value_field_bug :
    TDL.begendList lines1 none 10 = [(0, 9)] ∧
    TDL.findDataBlocks 10 none u7 lines1 =
      .ok [("", List.replicate 10 [.finite 7, .finite 7])] ∧
    TDL.specMatrixNone lines1 none 0 9 = List.replicate 10 [.finite 1, .finite 2] ∧
    ¬TDL.findDataBlocks 10 none u7 lines1 =
      .ok [("", TDL.specMatrixNone lines1 none 0 9)] := by decide

/-- C2 counterexample: with `minrows = 10` and headers disabled, `loadData` on
`linesC2` returns a three-row data block — the candidate run was still open at
end of file, so the scan never reset `start` and `loadtxt` is called on it;
the claim "never returns a data block of fewer than N rows" fails. -/
theorem c2_short_trailing_block :
    ({} : LD.LDArgs).minrows = 10 ∧
    (LD.ldScan {} linesC2).1.start = some 1 ∧
    (LD.ldScan {} linesC2).1.nrows = 3 ∧
    LD.loadDataModel {} linesC2 =
      .ok (.data [[.finite 1, .finite 2], [.finite 1, .finite 2], [.finite 1, .finite 2]]) ∧
    ¬LD.loadDataModel {} linesC2 = .ok (.data []) := by decide

/-- C3: the claim states that all rows of every block found by
`_findDataBlocks` have the same token count and every required cell parses as
a float.  On the code the second part fails: in `lines3` the words of the line
`"x y\n"` are attributed to the preceding empty line (the duplicate marks of
`n1[lr.nw1[:-1]] = True` collapse), so the pruning marks the empty line bad
instead and `"x y\n"` keeps `ok = True`; the accepted block `(0, 10)` then
contains original line 11 whose cells do not parse. -/
theorem c3_unparsed_cell_in_block :
    TDL.begendList lines3 none 10 = [(0, 10)] ∧
    TDL.idx1 lines3 none 10 = 11 ∧
    (TDL.splitlines lines3).getD 11 [] = ["x", "y"] ∧
    pyFloat? "x" = none ∧
    TDL.wordLine lines3 20 = 10 ∧
    TDL.lineOk lines3 none 11 = true ∧
    TDL.blocksSameWidth lines3 none 10 = true ∧
    TDL.requiredCellsParse lines3 none 10 = false := by decide

/-- C4 counterexample: on `lines4` (a non-float first and last line of the
same width as the data rows) the boundary pairing accepts the two overlapping
blocks `(0, 2)` and `(1, 3)`, both headers are empty, and concatenating the
headers with their block texts duplicates the middle rows instead of
reproducing the file. -/
theorem c4_overlap_breaks_roundtrip :
    TDL.begendList lines4 none 2 = [(0, 2), (1, 3)] ∧
    TDL.rtOf 2 none uZ lines4 = some "a b\n1 2\n1 2\n1 2\n1 2\nt t\n" ∧
    concatL lines4 = "a b\n1 2\n1 2\nt t\n" ∧
    ¬TDL.rtOf 2 none uZ lines4 = some (concatL lines4) := by decide

/-- C5 counterexample: `linesC5` contains no qualifying block (no run of ten
acceptable equal-shape lines), yet `loadData` with `minrows = 10` returns a
non-empty two-row array, because the candidate run was still open at end of
file; the claim "a file with no qualifying block returns an empty array"
fails. -/
theorem c5_trailing_run_not_empty :
    (∀ i, i < linesC5.length → LD.specRunB none linesC5 10 i = false) ∧
    LD.loadDataModel {} linesC5 =
      .ok (.data [[.finite 5, .finite 5], [.finite 5, .finite 5]]) ∧
    ¬LD.loadDataModel {} linesC5 = .ok (.data []) := by decide

/-- C6 counterexample: the last line of `linesX6` satisfies the claim's
recording condition (two non-blank `=`-split parts, no ignored prefix), yet
the returned mapping is empty: the scan breaks as soon as the ten-row data
block is found and never reads that line, so the claim's "iff" over all lines
of the file fails. -/
theorem c6_break_skips_header_line :
    linesX6.getD 10 "" = "a = b\n" ∧
    LD.specHeaderCond "=" none "a = b\n" = true ∧
    (LD.ldScan { headers := true } linesX6).2 = 10 ∧
    LD.loadDataModel { headers := true } linesX6 = .ok (.headerMap []) := by decide

/-- C8: the claim states that with a column selection every selected index is
resolved modulo the block width, so extraction never errors.  On the code,
extraction with a selection always raises: `tdata` is allocated with
`dend - dbeg` rows while each strided column slice has `dend - dbeg + 1`
elements, so the broadcast assignment fails.  At `lines8` with
`usecols = (0,)` and `minrows = 2` the block `(0, 1)` is accepted and
`_findDataBlocks` raises `ValueError`. -/
theorem c8_usecols_extraction_raises :
    TDL.mincolsZ (some [0]) = 1 ∧
    TDL.begendList lines8 (some [0]) 2 = [(0, 1)] ∧
    TDL.findDataBlocks 2 (some [0]) uZ lines8 = .err .valueError := by decide

/-- C10: the claim states that the boundary scan finds equally many begin and
end positions, that the paired row counts are never negative (the `assert` of
source line 263), and that pairing completes without raising.  On the code all
three fail: `linesA` has one begin position but two end positions (so the
pairing raises), and on `linesB` the begin and end lists have equal length but
pair inconsistently, producing a negative row count that fires the assert. -/
theorem c10_boundary_pairing_fails :
    (TDL.begList linesA none).length = 1 ∧
    (TDL.endList linesA none).length = 2 ∧
    TDL.findDataBlocks 10 none uZ linesA = .err .valueError ∧
    TDL.begList linesB none = [0, 2, 4, 6, 7, 8, 9, 10] ∧
    TDL.endList linesB none = [1, 2, 3, 4, 5, 7, 9, 11] ∧
    ((TDL.begList linesB none).zip (TDL.endList linesB none)).any
      (fun p => decide (p.2 < p.1)) = true ∧
    TDL.findDataBlocks 10 none uZ linesB = .err .assertionError := by decide

/-- The `loadData` argument record of a headers-mode call with default
`minrows` replaced by `N`. -/
def hdrArgs (N : Nat) (hdel : String) (hignore : Option (List String)) : LD.LDArgs :=
  { minrows := N, headers := true, hdel := hdel, hignore := hignore }

/-- The prefix of the file's lines that the scan of `loadData` actually
consumes (the scan breaks as soon as a qualifying block is found). -/
def scannedPrefix (N : Nat) (hdel : String) (hignore : Option (List String))
    (lines : List String) : List String :=
  lines.take (LD.ldScan (hdrArgs N hdel hignore) lines).2

theorem mem_lr1_iff (lines : List String) (usecols : Option (List Int)) (i : Nat)
    (hi : i < lines.length) :
    i ∈ TDL.lr1 lines usecols ↔ TDL.mincolsZ usecols ≤ (TDL.nf lines i : Int) := by
  simp [TDL.lr1, List.mem_filter, List.mem_range, hi]

/-- C9: with a non-empty column selection the minimum-columns threshold equals
the maximum of `1`, `max(selected) + 1` and `abs(min(selected))`; a line
survives into `lr1` (and hence enters block-boundary consideration at all)
exactly when its token count reaches the threshold; with no selection the
threshold is `1`. -/
theorem c9_mincols_threshold (lines : List String) (c : Int) (cs : List Int) :
    TDL.mincolsZ (some (c :: cs)) = max 1 (max (pyMaxZ c cs + 1) |pyMinZ c cs|) ∧
    (∀ i, i < lines.length →
      ((i ∈ TDL.lr1 lines (some (c :: cs))) ↔
        TDL.mincolsZ (some (c :: cs)) ≤ (TDL.nf lines i : Int))) ∧
    TDL.mincolsZ none = 1 ∧
    (∀ i, i < lines.length → ((i ∈ TDL.lr1 lines none) ↔ 1 ≤ (TDL.nf lines i : Int))) := by
  refine ⟨?_, ?_, rfl, ?_⟩
  · show max (max 1 (pyMaxZ c cs + 1)) |pyMinZ c cs| = _
    exact max_assoc 1 (pyMaxZ c cs + 1) |pyMinZ c cs|
  · intro i hi
    exact mem_lr1_iff lines (some (c :: cs)) i hi
  · intro i hi
    exact mem_lr1_iff lines none i hi

/-- Witness for C9 at the selection `(-2, 3)` on the two-line file `lines9`. -/
theorem c9_mincols_threshold_witness :
    TDL.mincolsZ (some [(-2 : Int), 3]) =
      max 1 (max (pyMaxZ (-2) [3] + 1) |pyMinZ (-2) [3]|) ∧
    ((1 ∈ TDL.lr1 lines9 (some [(-2 : Int), 3])) ↔
      TDL.mincolsZ (some [(-2 : Int), 3]) ≤ (TDL.nf lines9 1 : Int)) :=
  ⟨(c9_mincols_threshold lines9 (-2) [3]).1,
   (c9_mincols_threshold lines9 (-2) [3]).2.1 1 (by decide)⟩

theorem emitGo_len (lines : List String) (usecols : Option (List Int))
    (uninit : Nat → PyFloat) :
    ∀ (bl : List (Nat × Nat)) (h : Nat) (es : List (String × List (List PyFloat))) (hb : Nat),
      TDL.emitGo lines usecols uninit bl h = .ok (es, hb) → es.length = bl.length := by
  intro bl
  induction bl with
  | nil =>
    intro h es hb hE
    simp only [TDL.emitGo, PRes.ok.injEq, Prod.mk.injEq] at hE
    simp [← hE.1]
  | cons p rest ih =>
    intro h es hb hE
    obtain ⟨db, de⟩ := p
    simp only [TDL.emitGo] at hE
    split at hE
    · split at hE
      · exact absurd hE (by simp)
      · split at hE
        · exact absurd hE (by simp)
        · rename_i es' hb' hrec
          simp only [PRes.ok.injEq, Prod.mk.injEq] at hE
          rw [← hE.1]
          simp [ih _ _ _ hrec]
    · exact absurd hE (by simp)

theorem emitGo_hb (lines : List String) (usecols : Option (List Int))
    (uninit : Nat → PyFloat) :
    ∀ (bl : List (Nat × Nat)) (h : Nat) (es : List (String × List (List PyFloat))) (hb : Nat),
      TDL.emitGo lines usecols uninit bl h = .ok (es, hb) →
      hb = (match bl.getLast? with
            | none => h
            | some p => TDL.idx1 lines usecols p.2 + 1) := by
  intro bl
  induction bl with
  | nil =>
    intro h es hb hE
    simp only [TDL.emitGo, PRes.ok.injEq, Prod.mk.injEq] at hE
    simp [← hE.2]
  | cons p rest ih =>
    intro h es hb hE
    obtain ⟨db, de⟩ := p
    simp only [TDL.emitGo] at hE
    split at hE
    · split at hE
      · exact absurd hE (by simp)
      · split at hE
        · exact absurd hE (by simp)
        · rename_i es' hb' hrec
          simp only [PRes.ok.injEq, Prod.mk.injEq] at hE
          have hrec2 := ih _ _ _ hrec
          rw [← hE.2]
          cases rest with
          | nil => simpa using hrec2
          | cons q t => simpa [List.getLast?_cons_cons] using hrec2
    · exact absurd hE (by simp)

/-- C7 counterexample: the claim is universal over input files, but on the
two-line file `"1\n", "\n"` no block is accepted and both lines remain as
trailing text, so the claim promises exactly one final entry carrying them;
instead the mark assignment `n1[lr.nw1[:-1]] = True` (source line 236) indexes
position 1 of the 1-element word array because the last line has no token, and
`_findDataBlocks` raises `IndexError` before emitting anything — for every
content of the uninitialised field, no entry list is produced. -/
theorem c7_lastline_no_token_raises :
    TDL.trailRemainB linesT7 none 10 = true ∧
    (TDL.begendList linesT7 none 10).length = 0 ∧
    ∀ uninit : Nat → PyFloat,
      TDL.findDataBlocks 10 none uninit linesT7 = PRes.err PyErr.indexError :=
  ⟨by decide, by decide, fun _ => rfl⟩

/-- C7 (amended): whenever `_findDataBlocks` completes without raising (in
particular the last line carries at least one token), if source lines remain
after the last accepted block (including a file with lines but no accepted
block at all), exactly one extra final entry is emitted, whose header is the
trailing lines joined verbatim and whose dataset matrix has zero rows; no such
extra entry is emitted when the last accepted block ends at the last line. -/
theorem c7_trailing_entry (minrows : Nat) (usecols : Option (List Int))
    (uninit : Nat → PyFloat) (lines : List String)
    (es : List (String × List (List PyFloat)))
    (h : TDL.findDataBlocks minrows usecols uninit lines = .ok es) :
    (TDL.trailRemainB lines usecols minrows = true →
      es.length = (TDL.begendList lines usecols minrows).length + 1 ∧
      es.getLast? = some (TDL.trailTextOf lines usecols minrows, [])) ∧
    (TDL.trailRemainB lines usecols minrows = false →
      es.length = (TDL.begendList lines usecols minrows).length) := by
  simp only [TDL.findDataBlocks] at h
  split at h
  · exact absurd h (by simp)
  · split at h
    · exact absurd h (by simp)
    · split at h
      · exact absurd h (by simp)
      · split at h
        · exact absurd h (by simp)
        · rename_i es0 hbeg hrec
          have hlen := emitGo_len lines usecols uninit _ _ _ _ hrec
          have hhb := emitGo_hb lines usecols uninit _ _ _ _ hrec
          have hhb2 : hbeg = TDL.lastHbeg lines usecols minrows := by
            rw [hhb]
            unfold TDL.lastHbeg
            rfl
          simp only [PRes.ok.injEq] at h
          subst hhb2
          constructor
          · intro ht
            have hlt : TDL.lastHbeg lines usecols minrows < lines.length := by
              simpa [TDL.trailRemainB] using ht
            rw [← h]
            rw [if_pos hlt]
            refine ⟨by simp [hlen], ?_⟩
            rw [List.getLast?_concat]
            rfl
          · intro ht
            have hlt : ¬TDL.lastHbeg lines usecols minrows < lines.length := by
              simpa [TDL.trailRemainB] using ht
            rw [← h]
            rw [if_neg hlt]
            simp [hlen]

/-- Witness for C7 on `lines7`: the run completes with one accepted block, the
trailing line `"end\n"` remains, and exactly one extra zero-row entry carrying
it is emitted. -/
theorem c7_trailing_entry_witness :
    ([("", List.replicate 10 [PyFloat.finite 0, PyFloat.finite 0]),
      ("end\n", ([] : List (List PyFloat)))]).length =
      (TDL.begendList lines7 none 10).length + 1 ∧
    ([("", List.replicate 10 [PyFloat.finite 0, PyFloat.finite 0]),
      ("end\n", ([] : List (List PyFloat)))]).getLast? =
      some (TDL.trailTextOf lines7 none 10, []) :=
  (c7_trailing_entry 10 none uZ lines7
    [("", List.replicate 10 [PyFloat.finite 0, PyFloat.finite 0]),
     ("end\n", ([] : List (List PyFloat)))] (by decide)).1 (by decide)

theorem headerStep_spec (hdel : String) (hignore : Option (List String))
    (m : LD.HMap) (line : String) :
    LD.headerStep hdel hignore m line =
      if LD.specHeaderCond hdel hignore line = true then
        LD.dictUpdate m (LD.specHKey hdel line) (LD.specHVal hdel line)
      else m := by
  unfold LD.headerStep LD.specHeaderCond LD.specHKey LD.specHVal
  cases h : pySplitSep hdel line with
  | nil => simp
  | cons a t =>
    cases t with
    | nil => simp
    | cons b t2 =>
      cases t2 with
      | cons c t3 => simp
      | nil =>
        simp only [List.getD_cons_zero, List.getD_cons_succ]
        by_cases h1 : pyStripS a = ""
        · simp [h1]
        · by_cases h2 : pyStripS b = ""
          · simp [h1, h2]
          · simp only [h1, h2]
            simp [h1, h2]
            by_cases h3 : ∃ x ∈ hignore.getD [], x.data <+: (pyStripS a).data
            · have hno : ¬∀ x ∈ hignore.getD [], ¬x.data <+: (pyStripS a).data := by
                push_neg
                exact h3
              rw [if_pos h3, if_neg hno]
            · have hall : ∀ x ∈ hignore.getD [], ¬x.data <+: (pyStripS a).data := by
                push_neg at h3
                exact h3
              rw [if_neg h3, if_pos hall]

theorem hkeys_dictUpdate (m : LD.HMap) (k : String) (v : LD.HVal) (key : String) :
    key ∈ LD.hkeys (LD.dictUpdate m k v) ↔ key ∈ LD.hkeys m ∨ key = k := by
  unfold LD.dictUpdate
  by_cases h : m.any (fun p => p.1 = k) = true
  · rw [if_pos h]
    have hmap : LD.hkeys (m.map (fun p => if p.1 = k then (k, v) else p)) = LD.hkeys m := by
      unfold LD.hkeys
      rw [List.map_map]
      refine List.map_congr_left ?_
      intro p _
      by_cases hp : p.1 = k
      · simp [hp]
      · simp [hp]
    rw [hmap]
    constructor
    · exact Or.inl
    · intro hor
      rcases hor with h1 | h1
      · exact h1
      · subst h1
        simp only [List.any_eq_true, decide_eq_true_eq] at h
        obtain ⟨p, hp, hpk⟩ := h
        exact hpk ▸ List.mem_map_of_mem Prod.fst hp
  · rw [if_neg h]
    unfold LD.hkeys
    simp [eq_comm]

theorem mem_dictUpdate (m : LD.HMap) (k : String) (v : LD.HVal) (p : String × LD.HVal) :
    p ∈ LD.dictUpdate m k v → p ∈ m ∨ p = (k, v) := by
  unfold LD.dictUpdate
  by_cases h : m.any (fun q => q.1 = k) = true
  · rw [if_pos h]
    intro hp
    obtain ⟨q, hq, hqe⟩ := List.mem_map.mp hp
    by_cases hqk : q.1 = k
    · right
      rw [← hqe]
      simp [hqk]
    · left
      rw [← hqe]
      simpa [hqk] using hq
  · rw [if_neg h]
    intro hp
    rcases List.mem_append.mp hp with h1 | h1
    · exact Or.inl h1
    · exact Or.inr (by simpa using h1)

theorem headerFold_key_iff (hdel : String) (hignore : Option (List String)) :
    ∀ (ls : List String) (m : LD.HMap) (key : String),
      key ∈ LD.hkeys (LD.headerFold hdel hignore m ls) ↔
        key ∈ LD.hkeys m ∨
          ∃ line ∈ ls, LD.specHeaderCond hdel hignore line = true ∧
            LD.specHKey hdel line = key := by
  intro ls
  induction ls with
  | nil => simp [LD.headerFold]
  | cons line rest ih =>
    intro m key
    have hstep : LD.headerFold hdel hignore m (line :: rest) =
        LD.headerFold hdel hignore (LD.headerStep hdel hignore m line) rest := rfl
    rw [hstep, ih, headerStep_spec]
    by_cases hc : LD.specHeaderCond hdel hignore line = true
    · rw [if_pos hc, hkeys_dictUpdate]
      constructor
      · intro hor
        rcases hor with (h1 | h1) | h1
        · exact Or.inl h1
        · exact Or.inr ⟨line, List.mem_cons_self .., hc, h1.symm⟩
        · obtain ⟨l, hl, hcl, hkl⟩ := h1
          exact Or.inr ⟨l, List.mem_cons_of_mem _ hl, hcl, hkl⟩
      · intro hor
        rcases hor with h1 | ⟨l, hl, hcl, hkl⟩
        · exact Or.inl (Or.inl h1)
        · rcases List.mem_cons.mp hl with h2 | h2
          · subst h2
            exact Or.inl (Or.inr hkl.symm)
          · exact Or.inr ⟨l, h2, hcl, hkl⟩
    · rw [if_neg hc]
      constructor
      · intro hor
        rcases hor with h1 | ⟨l, hl, hcl, hkl⟩
        · exact Or.inl h1
        · exact Or.inr ⟨l, List.mem_cons_of_mem _ hl, hcl, hkl⟩
      · intro hor
        rcases hor with h1 | ⟨l, hl, hcl, hkl⟩
        · exact Or.inl h1
        · rcases List.mem_cons.mp hl with h2 | h2
          · subst h2
            exact absurd hcl hc
          · exact Or.inr ⟨l, h2, hcl, hkl⟩

theorem headerFold_mem (hdel : String) (hignore : Option (List String)) :
    ∀ (ls : List String) (m : LD.HMap) (p : String × LD.HVal),
      p ∈ LD.headerFold hdel hignore m ls →
        p ∈ m ∨ ∃ line ∈ ls, LD.specHeaderCond hdel hignore line = true ∧
          p = (LD.specHKey hdel line, LD.specHVal hdel line) := by
  intro ls
  induction ls with
  | nil => simp [LD.headerFold]
  | cons line rest ih =>
    intro m p hp
    have hstep : LD.headerFold hdel hignore m (line :: rest) =
        LD.headerFold hdel hignore (LD.headerStep hdel hignore m line) rest := rfl
    rw [hstep] at hp
    rcases ih _ _ hp with h1 | ⟨l, hl, hcl, hpl⟩
    · rw [headerStep_spec] at h1
      by_cases hc : LD.specHeaderCond hdel hignore line = true
      · rw [if_pos hc] at h1
        rcases mem_dictUpdate _ _ _ _ h1 with h2 | h2
        · exact Or.inl h2
        · exact Or.inr ⟨line, List.mem_cons_self .., hc, h2⟩
      · rw [if_neg hc] at h1
        exact Or.inl h1
    · exact Or.inr ⟨l, List.mem_cons_of_mem _ hl, hcl, hpl⟩

theorem ldScanGo_le (args : LD.LDArgs) (mincv : Nat × Nat) :
    ∀ (suffix : List String) (i : Nat) (st : LD.LDState),
      i ≤ (LD.ldScanGo args mincv suffix i st).2 := by
  intro suffix
  induction suffix with
  | nil =>
    intro i st
    simp [LD.ldScanGo]
  | cons line rest ih =>
    intro i st
    simp only [LD.ldScanGo]
    split
    · exact le_trans (Nat.le_succ i) (ih (i + 1) _)
    · have h1 : ∀ (c : Prop) (inst : Decidable c) (x y : LD.LDState × Nat),
          i + 1 ≤ x.2 → i + 1 ≤ y.2 → i ≤ (if c then x else y).2 := by
        intro c inst x y hx hy
        by_cases hc : c
        · rw [if_pos hc]; omega
        · rw [if_neg hc]; omega
      apply h1
      · exact Nat.le_refl _
      · exact ih (i + 1) _

theorem headerFold_cons_take (hdel : String) (hignore : Option (List String))
    (m : LD.HMap) (line : String) (rest : List String) (c i : Nat) (h : i + 1 ≤ c) :
    LD.headerFold hdel hignore (LD.headerStep hdel hignore m line) (rest.take (c - (i + 1))) =
      LD.headerFold hdel hignore m ((line :: rest).take (c - i)) := by
  have harith : c - i = (c - (i + 1)) + 1 := by omega
  rw [harith, List.take_succ_cons]
  rfl

theorem ldScanGo_hdata (args : LD.LDArgs) (mincv : Nat × Nat) (hH : args.headers = true) :
    ∀ (suffix : List String) (i : Nat) (st : LD.LDState),
      (LD.ldScanGo args mincv suffix i st).1.hdata =
        LD.headerFold args.hdel args.hignore st.hdata
          (suffix.take ((LD.ldScanGo args mincv suffix i st).2 - i)) := by
  intro suffix
  induction suffix with
  | nil =>
    intro i st
    simp [LD.ldScanGo, LD.headerFold]
  | cons line rest ih =>
    intro i st
    simp only [LD.ldScanGo, hH, if_true]
    split
    · rw [ih]
      exact headerFold_cons_take _ _ _ _ _ _ _ (ldScanGo_le args mincv rest (i + 1) _)
    · have h2 : ∀ (c : Prop) (inst : Decidable c) (x y : LD.LDState × Nat),
          x.1.hdata = LD.headerFold args.hdel args.hignore st.hdata
            ((line :: rest).take (x.2 - i)) →
          y.1.hdata = LD.headerFold args.hdel args.hignore st.hdata
            ((line :: rest).take (y.2 - i)) →
          (if c then x else y).1.hdata = LD.headerFold args.hdel args.hignore st.hdata
            ((line :: rest).take ((if c then x else y).2 - i)) := by
        intro c inst x y hx hy
        by_cases hc : c
        · rw [if_pos hc]
          exact hx
        · rw [if_neg hc]
          exact hy
      apply h2
      · simp [LD.headerFold, Nat.add_sub_cancel_left]
      · rw [ih]
        exact headerFold_cons_take _ _ _ _ _ _ _ (ldScanGo_le args mincv rest (i + 1) _)

/-- C6 (amended): with `headers=True`, the returned mapping is the header
accumulation over the lines the scan actually consumes (the scan stops once
the data block is found, so later lines are never considered); over that
prefix, a key is present exactly when some consumed line splits on `hdel` into
exactly two non-blank trimmed parts whose trimmed key avoids every `hignore`
prefix, every stored entry comes from such a line, and the stored value is the
float conversion of the value string when convertible, else the string
itself.  In particular the three header lines `"qmax = 10"`, `"# comment"`,
`"[defaults]"` followed by twelve two-float lines give exactly
`{"qmax": 10.0}`. -/
theorem c6_header_mapping (lines : List String) (N : Nat) (hdel : String)
    (hignore : Option (List String)) :
    (LD.loadDataModel (hdrArgs N hdel hignore) lines =
      .ok (.headerMap (LD.headerFold hdel hignore [] (scannedPrefix N hdel hignore lines)))) ∧
    (∀ key, key ∈ LD.hkeys (LD.headerFold hdel hignore [] (scannedPrefix N hdel hignore lines)) ↔
      ∃ line ∈ scannedPrefix N hdel hignore lines,
        LD.specHeaderCond hdel hignore line = true ∧ LD.specHKey hdel line = key) ∧
    (∀ p ∈ LD.headerFold hdel hignore [] (scannedPrefix N hdel hignore lines),
      ∃ line ∈ scannedPrefix N hdel hignore lines,
        LD.specHeaderCond hdel hignore line = true ∧
          p = (LD.specHKey hdel line, LD.specHVal hdel line)) ∧
    LD.loadDataModel { headers := true, hdel := "=", hignore := some ["#", "["] } linesS6 =
      .ok (.headerMap [("qmax", .num (.finite 10))]) := by
  refine ⟨?_, ?_, ?_, by decide⟩
  · have hmap := ldScanGo_hdata (hdrArgs N hdel hignore) (LD.mincvOf none) rfl lines 0 {}
    simp only [hdrArgs] at hmap
    simp [LD.loadDataModel, hdrArgs, LD.ldScan, scannedPrefix, hmap]
  · intro key
    rw [headerFold_key_iff]
    simp [LD.hkeys]
  · intro p hp
    rcases headerFold_mem hdel hignore _ _ _ hp with h1 | h1
    · exact absurd h1 (by simp)
    · exact h1

/-- Witness for C6 on the scenario file `linesS6`. -/
theorem c6_header_mapping_witness :
    LD.loadDataModel { headers := true, hdel := "=", hignore := some ["#", "["] } linesS6 =
      .ok (.headerMap [("qmax", .num (.finite 10))]) ∧
    ("qmax" ∈ LD.hkeys (LD.headerFold "=" (some ["#", "["]) []
        (scannedPrefix 10 "=" (some ["#", "["]) linesS6)) ↔
      ∃ line ∈ scannedPrefix 10 "=" (some ["#", "["]) linesS6,
        LD.specHeaderCond "=" (some ["#", "["]) line = true ∧
          LD.specHKey "=" line = "qmax") :=
  ⟨(c6_header_mapping linesS6 10 "=" (some ["#", "["])).2.2.2,
   (c6_header_mapping linesS6 10 "=" (some ["#", "["])).2.1 "qmax"⟩

theorem acc_lt_len (usecols : Option (List Int)) (lines : List String) (i : Nat)
    (h : LD.accAt usecols lines i = true) : i < lines.length := by
  simp only [LD.accAt, Bool.and_eq_true, decide_eq_true_eq] at h
  exact h.1

theorem runLen_acc (usecols : Option (List Int)) (lines : List String) :
    ∀ i, 0 < LD.runLenAt usecols lines i → LD.accAt usecols lines i = true := by
  intro i
  cases i with
  | zero =>
    simp only [LD.runLenAt]
    split
    · intro _; assumption
    · simp
  | succ p =>
    simp only [LD.runLenAt]
    split
    · intro _; assumption
    · simp

theorem acc_runLen_pos (usecols : Option (List Int)) (lines : List String) (i : Nat)
    (h : LD.accAt usecols lines i = true) : 1 ≤ LD.runLenAt usecols lines i := by
  cases i with
  | zero => simp [LD.runLenAt, h]
  | succ p =>
    simp only [LD.runLenAt, h, if_true]
    split
    · omega
    · omega

theorem runLen_succ_le (usecols : Option (List Int)) (lines : List String) (i : Nat) :
    LD.runLenAt usecols lines (i + 1) ≤ LD.runLenAt usecols lines i + 1 := by
  simp only [LD.runLenAt]
  split
  · split
    · omega
    · rename_i hand
      simp only [Bool.and_eq_true, decide_eq_true_eq, not_and] at hand
      cases hacc : LD.accAt usecols lines i with
      | true =>
        have := acc_runLen_pos usecols lines i hacc
        omega
      | false =>
        omega
  · omega

theorem runLen_ge_two (usecols : Option (List Int)) (lines : List String) (i : Nat)
    (h : 2 ≤ LD.runLenAt usecols lines i) :
    ∃ p, i = p + 1 ∧ LD.accAt usecols lines p = true ∧
      LD.ncvAt usecols lines p = LD.ncvAt usecols lines (p + 1) ∧
      LD.runLenAt usecols lines (p + 1) = LD.runLenAt usecols lines p + 1 := by
  cases i with
  | zero =>
    exfalso
    simp only [LD.runLenAt] at h
    split at h <;> omega
  | succ p =>
    refine ⟨p, rfl, ?_⟩
    have h2 := h
    simp only [LD.runLenAt] at h2
    split at h2
    · split at h2
      · rename_i hand
        simp only [Bool.and_eq_true, decide_eq_true_eq] at hand
        refine ⟨hand.1, hand.2, ?_⟩
        simp only [LD.runLenAt]
        rw [if_pos (by assumption), if_pos (by simp [hand.1, hand.2])]
      · omega
    · omega

theorem runLen_window (usecols : Option (List Int)) (lines : List String) :
    ∀ (d t : Nat), d + 1 ≤ LD.runLenAt usecols lines t →
      LD.accAt usecols lines (t - d) = true ∧
        LD.ncvAt usecols lines (t - d) = LD.ncvAt usecols lines t := by
  intro d
  induction d with
  | zero =>
    intro t h
    exact ⟨runLen_acc usecols lines t (by omega), by simp⟩
  | succ d ih =>
    intro t h
    obtain ⟨p, hp, hacc, hncv, hsum⟩ := runLen_ge_two usecols lines t (by omega)
    subst hp
    have hd : d + 1 ≤ LD.runLenAt usecols lines p := by omega
    obtain ⟨ha, hn⟩ := ih p hd
    have harith : p + 1 - (d + 1) = p - d := by omega
    rw [harith]
    exact ⟨ha, hn.trans hncv⟩

theorem runLen_le_succ_idx (usecols : Option (List Int)) (lines : List String) :
    ∀ i, LD.runLenAt usecols lines i ≤ i + 1 := by
  intro i
  induction i with
  | zero =>
    simp only [LD.runLenAt]
    split <;> omega
  | succ p ih =>
    have := runLen_succ_le usecols lines p
    omega

theorem fq_some_spec (usecols : Option (List Int)) (lines : List String) (N : Nat) :
    ∀ (fuel i t : Nat), LD.firstQualAux usecols lines N i fuel = some t →
      i ≤ t ∧ t < i + fuel ∧ LD.qualAtB usecols lines N t = true ∧
        ∀ j, i ≤ j → j < t → LD.qualAtB usecols lines N j = false := by
  intro fuel
  induction fuel with
  | zero =>
    intro i t h
    simp [LD.firstQualAux] at h
  | succ fuel ih =>
    intro i t h
    simp only [LD.firstQualAux] at h
    split at h
    · rename_i hq
      cases h
      exact ⟨le_refl _, by omega, hq, fun j h1 h2 => absurd (lt_of_le_of_lt h1 h2) (lt_irrefl _)⟩
    · rename_i hq
      obtain ⟨h1, h2, h3, h4⟩ := ih (i + 1) t h
      refine ⟨by omega, by omega, h3, ?_⟩
      intro j hj1 hj2
      rcases Nat.eq_or_lt_of_le hj1 with he | hlt
      · rw [← he]
        simpa using hq
      · exact h4 j hlt hj2

theorem fq_none_spec (usecols : Option (List Int)) (lines : List String) (N : Nat) :
    ∀ (fuel i : Nat), LD.firstQualAux usecols lines N i fuel = none →
      ∀ j, i ≤ j → j < i + fuel → LD.qualAtB usecols lines N j = false := by
  intro fuel
  induction fuel with
  | zero =>
    intro i _ j h1 h2
    omega
  | succ fuel ih =>
    intro i h j h1 h2
    simp only [LD.firstQualAux] at h
    split at h
    · exact absurd h (by simp)
    · rename_i hq
      rcases Nat.eq_or_lt_of_le h1 with he | hlt
      · rw [← he]
        simpa using hq
      · exact ih (i + 1) h j hlt (by omega)

theorem qual_to_spec (usecols : Option (List Int)) (lines : List String) (N t : Nat)
    (h : LD.qualAtB usecols lines N t = true) :
    LD.specRunB usecols lines N (t + 1 - LD.runLenAt usecols lines t) = true := by
  simp only [LD.qualAtB, Bool.and_eq_true, decide_eq_true_eq] at h
  obtain ⟨hacc, hN⟩ := h
  have hlen := acc_lt_len usecols lines t hacc
  have hpos := acc_runLen_pos usecols lines t hacc
  have hidx := runLen_le_succ_idx usecols lines t
  simp only [LD.specRunB, Bool.and_eq_true, decide_eq_true_eq, List.all_eq_true]
  constructor
  · omega
  · intro k hk
    have hk2 : k < N := List.mem_range.mp hk
    have hw1 := runLen_window usecols lines (LD.runLenAt usecols lines t - 1 - k) t (by omega)
    have hw2 := runLen_window usecols lines (LD.runLenAt usecols lines t - 1) t (by omega)
    have he1 : t - (LD.runLenAt usecols lines t - 1 - k) =
        t + 1 - LD.runLenAt usecols lines t + k := by omega
    have he2 : t - (LD.runLenAt usecols lines t - 1) =
        t + 1 - LD.runLenAt usecols lines t := by omega
    rw [he1] at hw1
    rw [he2] at hw2
    refine ⟨hw1.1, ?_⟩
    simp [hw1.2, hw2.2]

theorem spec_to_qual (usecols : Option (List Int)) (lines : List String) (N i : Nat)
    (hN : 1 ≤ N) (h : LD.specRunB usecols lines N i = true) :
    LD.qualAtB usecols lines N (i + N - 1) = true := by
  simp only [LD.specRunB, Bool.and_eq_true, decide_eq_true_eq, List.all_eq_true] at h
  obtain ⟨hlen, hall⟩ := h
  have hstep : ∀ k, k < N → k + 1 ≤ LD.runLenAt usecols lines (i + k) := by
    intro k
    induction k with
    | zero =>
      intro _
      have h0 := hall 0 (List.mem_range.mpr (by omega))
      simp only [Nat.add_zero, Bool.and_eq_true, decide_eq_true_eq] at h0
      exact acc_runLen_pos usecols lines i h0.1
    | succ k ih =>
      intro hk
      have hk1 := hall (k + 1) (List.mem_range.mpr hk)
      have hk0 := hall k (List.mem_range.mpr (by omega))
      simp only [Bool.and_eq_true, decide_eq_true_eq] at hk1 hk0
      have hik : i + (k + 1) = (i + k) + 1 := by omega
      have hacc1 : LD.accAt usecols lines ((i + k) + 1) = true := by
        rw [← hik]
        exact hk1.1
      have hcond : (LD.accAt usecols lines (i + k) &&
          decide (LD.ncvAt usecols lines (i + k) =
            LD.ncvAt usecols lines ((i + k) + 1))) = true := by
        simp only [Bool.and_eq_true, decide_eq_true_eq]
        refine ⟨hk0.1, ?_⟩
        rw [hk0.2, ← hik, hk1.2]
      have hrl : LD.runLenAt usecols lines (i + (k + 1)) =
          LD.runLenAt usecols lines (i + k) + 1 := by
        rw [hik]
        simp only [LD.runLenAt]
        rw [if_pos hacc1, if_pos hcond]
      have hihk := ih (by omega)
      omega
  have hlast := hall (N - 1) (List.mem_range.mpr (by omega))
  simp only [Bool.and_eq_true, decide_eq_true_eq] at hlast
  have harith : i + N - 1 = i + (N - 1) := by omega
  simp only [LD.qualAtB, Bool.and_eq_true, decide_eq_true_eq, harith]
  exact ⟨hlast.1, by have := hstep (N - 1) (by omega); omega⟩

theorem ldScanGo_char (args : LD.LDArgs) (lines : List String) :
    ∀ (suffix : List String) (i : Nat) (st : LD.LDState),
      lines.drop i = suffix → i ≤ lines.length →
      LD.InvAt args.usecols lines i st →
      (match LD.firstQualAux args.usecols lines args.minrows i (lines.length - i) with
       | some t =>
         (LD.ldScanGo args (LD.mincvOf args.usecols) suffix i st).2 = t + 1 ∧
         (LD.ldScanGo args (LD.mincvOf args.usecols) suffix i st).1.start =
           some (t + 1 - LD.runLenAt args.usecols lines t) ∧
         (LD.ldScanGo args (LD.mincvOf args.usecols) suffix i st).1.nrows =
           LD.runLenAt args.usecols lines t ∧
         (LD.ldScanGo args (LD.mincvOf args.usecols) suffix i st).1.ncvblock =
           some (LD.ncvAt args.usecols lines t)
       | none =>
         (LD.ldScanGo args (LD.mincvOf args.usecols) suffix i st).2 = lines.length ∧
         LD.InvAt args.usecols lines lines.length
           (LD.ldScanGo args (LD.mincvOf args.usecols) suffix i st).1) := by
  intro suffix
  induction suffix with
  | nil =>
    intro i st hdrop hle hInv
    have hlen : lines.length ≤ i := List.drop_eq_nil_iff.mp hdrop
    have hieq : i = lines.length := le_antisymm hle hlen
    subst hieq
    rw [Nat.sub_self]
    simp only [LD.firstQualAux]
    exact ⟨rfl, hInv⟩
  | cons line rest ih =>
    intro i st hdrop hle hInv
    have hi : i < lines.length := by
      by_contra hcon
      have h0 : lines.drop i = [] := List.drop_eq_nil_of_le (by omega)
      rw [h0] at hdrop
      exact absurd hdrop (by simp)
    have hget : lines.getD i "" = line := by
      have h1 : (lines.drop i)[0]? = some line := by rw [hdrop]; simp
      rw [List.getElem?_drop] at h1
      simp only [Nat.add_zero] at h1
      simp [List.getD_eq_getElem?_getD, h1]
    have hrest : lines.drop (i + 1) = rest := by
      have h0 : List.drop 1 (List.drop i lines) = List.drop (i + 1) lines :=
        List.drop_drop 1 i lines
      rw [hdrop] at h0
      exact h0.symm
    have hfuel : lines.length - i = (lines.length - (i + 1)) + 1 := by omega
    rw [hfuel]
    simp only [LD.firstQualAux]
    have hncveq : LD.ncvAt args.usecols lines i = LD.countcolumnsvalues args.usecols line := by
      unfold LD.ncvAt
      rw [hget]
    simp only [LD.ldScanGo]
    by_cases hacc :
        LD.tupLt (LD.countcolumnsvalues args.usecols line) (LD.mincvOf args.usecols) = true
    · -- the line is not acceptable: reset the candidate and continue
      have haccF : LD.accAt args.usecols lines i = false := by
        unfold LD.accAt
        rw [hget]
        simp [hi, hacc]
      have hqF : LD.qualAtB args.usecols lines args.minrows i = false := by
        simp [LD.qualAtB, haccF]
      rw [if_pos hacc, hqF]
      simp only [Bool.false_eq_true, if_false]
      refine ih (i + 1) _ hrest (by omega) ?_
      constructor
      · intro h0
        omega
      · intro p hp
        have hpi : p = i := by omega
        subst hpi
        constructor
        · intro hacT
          rw [haccF] at hacT
          cases hacT
        · intro _
          rfl
    · -- the line is acceptable
      have haccT : LD.accAt args.usecols lines i = true := by
        unfold LD.accAt
        rw [hget]
        simp [hi, hacc]
      rw [if_neg hacc]
      -- the state after processing line i has nrows = runLenAt i,
      -- start = some (i + 1 - runLenAt i) and ncvblock = some (ncvAt i)
      have hkey :
          (if (decide (st.start = none) ||
                decide ¬st.ncvblock = some (LD.countcolumnsvalues args.usecols line)) = true
             then some i else st.start) = some (i + 1 - LD.runLenAt args.usecols lines i) ∧
          ((if (decide (st.start = none) ||
                decide ¬st.ncvblock = some (LD.countcolumnsvalues args.usecols line)) = true
             then 0 else st.nrows) + 1) = LD.runLenAt args.usecols lines i ∧
          (if (decide (st.start = none) ||
                decide ¬st.ncvblock = some (LD.countcolumnsvalues args.usecols line)) = true
             then some (LD.countcolumnsvalues args.usecols line) else st.ncvblock) =
            some (LD.ncvAt args.usecols lines i) := by
        cases i with
        | zero =>
          obtain ⟨hst, hncvb⟩ := hInv.1 rfl
          have hrl : LD.runLenAt args.usecols lines 0 = 1 := by
            simp [LD.runLenAt, haccT]
          rw [hst, hrl, hncveq]
          simp
        | succ p =>
          obtain ⟨hT, hF⟩ := hInv.2 p rfl
          cases hap : LD.accAt args.usecols lines p with
          | false =>
            have hst := hF hap
            have hrl : LD.runLenAt args.usecols lines (p + 1) = 1 := by
              simp [LD.runLenAt, haccT, hap]
            rw [hst, hrl, hncveq]
            simp
          | true =>
            obtain ⟨hst, hnr, hcb⟩ := hT hap
            by_cases hsame :
                LD.ncvAt args.usecols lines p = LD.countcolumnsvalues args.usecols line
            · have hcond : (decide (st.start = none) ||
                  decide ¬st.ncvblock = some (LD.countcolumnsvalues args.usecols line)) = false := by
                rw [hst, hcb, hsame]
                simp
              have hrl : LD.runLenAt args.usecols lines (p + 1) =
                  LD.runLenAt args.usecols lines p + 1 := by
                simp only [LD.runLenAt]
                rw [if_pos haccT,
                  if_pos (by
                    simp only [Bool.and_eq_true, decide_eq_true_eq]
                    exact ⟨hap, by rw [hsame, hncveq]⟩)]
              have hple := runLen_le_succ_idx args.usecols lines p
              rw [hcond, hst, hnr, hcb, hrl, hsame, hncveq]
              simp only [Bool.false_eq_true, if_false]
              refine ⟨?_, by simp, by simp⟩
              congr 1
              omega
            · have hcond : (decide (st.start = none) ||
                  decide ¬st.ncvblock = some (LD.countcolumnsvalues args.usecols line)) = true := by
                rw [hcb]
                simp only [Bool.or_eq_true, decide_eq_true_eq]
                right
                intro hcon
                exact hsame (by injection hcon)
              have hrl : LD.runLenAt args.usecols lines (p + 1) = 1 := by
                simp only [LD.runLenAt]
                rw [if_pos haccT,
                  if_neg (by
                    simp only [Bool.and_eq_true, decide_eq_true_eq, not_and]
                    intro _ hcon
                    exact hsame (by rw [hcon, hncveq]))]
              rw [hcond, hrl, hncveq]
              simp
      obtain ⟨hk1, hk2, hk3⟩ := hkey
      by_cases hq : LD.qualAtB args.usecols lines args.minrows i = true
      · -- the break condition holds at line i: the scan stops here
        have hNle : args.minrows ≤ LD.runLenAt args.usecols lines i := by
          simp only [LD.qualAtB, Bool.and_eq_true, decide_eq_true_eq] at hq
          exact hq.2
        have hbrk : args.minrows ≤
            (if (decide (st.start = none) ||
                  decide ¬st.ncvblock = some (LD.countcolumnsvalues args.usecols line)) = true
               then 0 else st.nrows) + 1 := by
          rw [hk2]
          exact hNle
        rw [if_pos hq, if_pos hbrk]
        exact ⟨rfl, hk1, hk2, hk3⟩
      · -- no break: continue scanning with the updated candidate state
        have hNlt : ¬args.minrows ≤ LD.runLenAt args.usecols lines i := by
          intro hcon
          exact hq (by simp [LD.qualAtB, haccT, hcon])
        have hnb : ¬args.minrows ≤
            (if (decide (st.start = none) ||
                  decide ¬st.ncvblock = some (LD.countcolumnsvalues args.usecols line)) = true
               then 0 else st.nrows) + 1 := by
          rw [hk2]
          exact hNlt
        rw [if_neg hq, if_neg hnb]
        refine ih (i + 1) _ hrest (by omega) ⟨by intro h0; omega, ?_⟩
        intro p hp
        have hpi : p = i := by omega
        subst hpi
        constructor
        · intro _
          exact ⟨hk1, hk2, hk3⟩
        · intro hf
          rw [haccT] at hf
          cases hf

theorem specRun_le_len (usecols : Option (List Int)) (lines : List String) (N i : Nat)
    (h : LD.specRunB usecols lines N i = true) : i + N ≤ lines.length := by
  simp only [LD.specRunB, Bool.and_eq_true, decide_eq_true_eq] at h
  exact h.1

theorem ldScan_char (lines : List String) (N : Nat) :
    (match LD.firstQual none lines N with
     | some t =>
       (LD.ldScan { minrows := N } lines).2 = t + 1 ∧
       (LD.ldScan { minrows := N } lines).1.start =
         some (t + 1 - LD.runLenAt none lines t) ∧
       (LD.ldScan { minrows := N } lines).1.nrows = LD.runLenAt none lines t ∧
       (LD.ldScan { minrows := N } lines).1.ncvblock = some (LD.ncvAt none lines t)
     | none =>
       (LD.ldScan { minrows := N } lines).2 = lines.length ∧
       LD.InvAt none lines lines.length (LD.ldScan { minrows := N } lines).1) :=
  ldScanGo_char { minrows := N } lines lines 0 {} rfl (by omega)
    ⟨fun _ => ⟨rfl, rfl⟩, fun p hp => absurd hp (by omega)⟩

theorem firstQual_none_of_no_run (lines : List String) (N : Nat)
    (h1 : ∀ i, i < lines.length → LD.specRunB none lines N i = false) :
    LD.firstQual none lines N = none := by
  cases hfq : LD.firstQual none lines N with
  | none => rfl
  | some t =>
    exfalso
    obtain ⟨_, _, hq, _⟩ := fq_some_spec none lines N lines.length 0 t hfq
    have hspec := qual_to_spec none lines N t hq
    have hacc : LD.accAt none lines t = true := by
      simp only [LD.qualAtB, Bool.and_eq_true] at hq
      exact hq.1
    have hlt : t + 1 - LD.runLenAt none lines t < lines.length := by
      have ha := acc_lt_len none lines t hacc
      have hb := acc_runLen_pos none lines t hacc
      omega
    rw [h1 _ hlt] at hspec
    cases hspec

/-- C2 (amended): with headers disabled and `minrows = N ≥ 1`, whenever a
qualifying block (a run of `N` consecutive acceptable equal-shape lines)
exists, the scan's recorded start is the start of the FIRST such block in file
order, and the scan stops immediately after reading that block's `N`-th row
(consuming `s + N` lines); however, when no qualifying block exists, a
candidate may still be recorded: exactly when the file's last line is
acceptable, the recorded start is the start of the acceptable run still open
at end of file, whose data — shorter than `N` rows — is then returned.  (The
original claim's "never returns a data block of fewer than N rows" fails on
that trailing case.) -/
theorem c2_first_block_scan (lines : List String) (N : Nat) (hN : 1 ≤ N) :
    ((∃ i, LD.specRunB none lines N i = true) →
      ∃ s, (LD.ldScan { minrows := N } lines).1.start = some s ∧
        LD.specRunB none lines N s = true ∧
        (∀ j, LD.specRunB none lines N j = true → s ≤ j) ∧
        (LD.ldScan { minrows := N } lines).2 = s + N) ∧
    ((∀ i, i < lines.length → LD.specRunB none lines N i = false) →
      ∀ s, (LD.ldScan { minrows := N } lines).1.start = some s →
        LD.accAt none lines (lines.length - 1) = true ∧
        s = lines.length - LD.runLenAt none lines (lines.length - 1) ∧
        (LD.ldScan { minrows := N } lines).1.nrows < N) := by
  have hchar := ldScan_char lines N
  constructor
  · rintro ⟨i0, hspec0⟩
    have hq0 := spec_to_qual none lines N i0 hN hspec0
    cases hfq : LD.firstQual none lines N with
    | none =>
      exfalso
      have hb := specRun_le_len none lines N i0 hspec0
      have := fq_none_spec none lines N lines.length 0 hfq (i0 + N - 1) (by omega) (by omega)
      rw [this] at hq0
      cases hq0
    | some t =>
      rw [hfq] at hchar
      obtain ⟨hcons, hstart, hnrows, _⟩ := hchar
      obtain ⟨_, _, hqt, hmin⟩ := fq_some_spec none lines N lines.length 0 t hfq
      have hqt2 := hqt
      simp only [LD.qualAtB, Bool.and_eq_true, decide_eq_true_eq] at hqt2
      obtain ⟨hacct, hNle⟩ := hqt2
      -- the run length at the break line is exactly N
      have hrlN : LD.runLenAt none lines t = N := by
        by_contra hcon
        have h2 : 2 ≤ LD.runLenAt none lines t := by omega
        obtain ⟨p, hp, haccp, _, hsum⟩ := runLen_ge_two none lines t h2
        subst hp
        have hqp : LD.qualAtB none lines N p = true := by
          simp only [LD.qualAtB, Bool.and_eq_true, decide_eq_true_eq]
          exact ⟨haccp, by omega⟩
        have := hmin p (by omega) (by omega)
        rw [this] at hqp
        cases hqp
      refine ⟨t + 1 - N, by rw [hstart, hrlN], ?_, ?_, ?_⟩
      · have := qual_to_spec none lines N t hqt
        rw [hrlN] at this
        exact this
      · intro j hj
        by_contra hcon
        have hqj := spec_to_qual none lines N j hN hj
        have hti := runLen_le_succ_idx none lines t
        have hjt : j + N - 1 < t := by omega
        have := hmin (j + N - 1) (by omega) hjt
        rw [this] at hqj
        cases hqj
      · have hpos := acc_runLen_pos none lines t hacct
        have hti2 := runLen_le_succ_idx none lines t
        rw [hcons]
        omega
  · intro h1 s hs
    have hfq := firstQual_none_of_no_run lines N h1
    rw [hfq] at hchar
    obtain ⟨hcons, hInvEnd⟩ := hchar
    cases hlen : lines.length with
    | zero =>
      exfalso
      rw [hlen] at hInvEnd
      obtain ⟨h0, _⟩ := hInvEnd
      rw [hs] at h0
      exact absurd (h0 rfl).1 (by simp)
    | succ n =>
      rw [hlen] at hInvEnd
      obtain ⟨hT, hF⟩ := hInvEnd.2 n rfl
      cases hap : LD.accAt none lines n with
      | false =>
        exfalso
        have h0 := hF hap
        rw [hs] at h0
        cases h0
      | true =>
        obtain ⟨hst, hnr, _⟩ := hT hap
        rw [hs] at hst
        have hsn : s = n + 1 - LD.runLenAt none lines n := by
          injection hst
        have hnN : LD.runLenAt none lines n < N := by
          by_contra hcon
          have hqn : LD.qualAtB none lines N n = true := by
            simp only [LD.qualAtB, Bool.and_eq_true, decide_eq_true_eq]
            exact ⟨hap, by omega⟩
          have hspecn := qual_to_spec none lines N n hqn
          have hlt : n + 1 - LD.runLenAt none lines n < lines.length := by
            have := acc_runLen_pos none lines n hap
            omega
          rw [h1 _ hlt] at hspecn
          cases hspecn
        have hn1 : n + 1 - 1 = n := by omega
        rw [hn1]
        exact ⟨hap, hsn, by rw [hnr]; omega⟩

/-- Witness for C2 on `linesW2` with `minrows = 2`: the first qualifying block
starts at line 1, the scan records it and stops after consuming three lines. -/
theorem c2_first_block_scan_witness :
    ∃ s, (LD.ldScan { minrows := 2 } linesW2).1.start = some s ∧
      LD.specRunB none linesW2 2 s = true ∧
      (∀ j, LD.specRunB none linesW2 2 j = true → s ≤ j) ∧
      (LD.ldScan { minrows := 2 } linesW2).2 = s + 2 :=
  (c2_first_block_scan linesW2 2 (by decide)).1 ⟨1, by decide⟩

/-- C5 (amended): a file with no qualifying block yields the empty float array
and no error, provided the scan's candidate is not still open at end of file
(the file is empty or its last line is unacceptable); without that proviso a
trailing run shorter than `minrows` is returned instead. -/
theorem c5_no_block_empty (lines : List String) (N : Nat) (hN : 1 ≤ N)
    (h1 : ∀ i, i < lines.length → LD.specRunB none lines N i = false)
    (h2 : lines = [] ∨ LD.accAt none lines (lines.length - 1) = false) :
    LD.loadDataModel { minrows := N } lines = .ok (.data []) ∧
    (LD.ldScan { minrows := N } lines).1.start = none := by
  have hchar := ldScan_char lines N
  have hfq := firstQual_none_of_no_run lines N h1
  rw [hfq] at hchar
  obtain ⟨hcons, hInvEnd⟩ := hchar
  have hstart : (LD.ldScan { minrows := N } lines).1.start = none := by
    rcases h2 with he | hacc
    · have h0 : lines.length = 0 := by rw [he]; rfl
      rw [h0] at hInvEnd
      exact (hInvEnd.1 rfl).1
    · cases hlen : lines.length with
      | zero =>
        rw [hlen] at hInvEnd
        exact (hInvEnd.1 rfl).1
      | succ n =>
        rw [hlen] at hInvEnd
        obtain ⟨_, hF⟩ := hInvEnd.2 n rfl
        refine hF ?_
        have hn1 : lines.length - 1 = n := by omega
        rw [← hn1]
        exact hacc
  refine ⟨?_, hstart⟩
  simp [LD.loadDataModel, LD.ldScan] at hstart ⊢
  simp [hstart]

/-- Witness for C5 on `linesW5`: no line is acceptable, so the result is the
empty array with no candidate recorded. -/
theorem c5_no_block_empty_witness :
    LD.loadDataModel { minrows := 10 } linesW5 = .ok (.data []) ∧
    (LD.ldScan { minrows := 10 } linesW5).1.start = none :=
  c5_no_block_empty linesW5 10 (by decide) (by decide) (Or.inr (by decide))

theorem concatL_append (a b : List String) :
    concatL (a ++ b) = concatL a ++ concatL b := by
  induction a with
  | nil => simp [concatL]
  | cons x xs ih =>
    show x ++ concatL (xs ++ b) = (x ++ concatL xs) ++ concatL b
    rw [ih, String.append_assoc]

theorem sliceStr_comp (lines : List String) (a b c : Nat) (h1 : a ≤ b) (h2 : b ≤ c) :
    sliceStr lines a b ++ sliceStr lines b c = sliceStr lines a c := by
  unfold sliceStr
  rw [← concatL_append]
  congr 1
  have hd : lines.drop b = (lines.drop a).drop (b - a) := by
    rw [List.drop_drop]
    congr 1
    omega
  rw [hd]
  have harith : c - a = (b - a) + (c - b) := by omega
  rw [harith, List.take_add]

theorem sliceStr_full (lines : List String) :
    sliceStr lines 0 lines.length = concatL lines := by
  unfold sliceStr
  simp

theorem idx1_lt (lines : List String) (usecols : Option (List Int)) (k : Nat)
    (hk : k < TDL.mOf lines usecols) : TDL.idx1 lines usecols k < lines.length := by
  have hmem : TDL.idx1 lines usecols k ∈ TDL.lr1 lines usecols := by
    unfold TDL.idx1
    rw [List.getD_eq_getElem?_getD]
    have : (TDL.lr1 lines usecols)[k]? = some ((TDL.lr1 lines usecols).get ⟨k, hk⟩) := by
      rw [List.getElem?_eq_getElem hk]
      simp
    rw [this]
    simp [List.get_mem]
  have := List.mem_filter.mp hmem
  exact List.mem_range.mp this.1

theorem idx1_mono (lines : List String) (usecols : Option (List Int)) (j k : Nat)
    (hjk : j ≤ k) (hk : k < TDL.mOf lines usecols) :
    TDL.idx1 lines usecols j ≤ TDL.idx1 lines usecols k := by
  rcases Nat.eq_or_lt_of_le hjk with he | hlt
  · rw [he]
  · have hj : j < TDL.mOf lines usecols := by omega
    have hpair : (TDL.lr1 lines usecols).Pairwise (· < ·) :=
      List.Pairwise.filter _ (List.pairwise_lt_range _)
    have hget := (List.pairwise_iff_get.mp hpair) ⟨j, hj⟩ ⟨k, hk⟩ hlt
    unfold TDL.idx1
    rw [List.getD_eq_getElem?_getD, List.getD_eq_getElem?_getD,
      List.getElem?_eq_getElem hj, List.getElem?_eq_getElem hk]
    simp only [Option.getD_some]
    exact le_of_lt hget

theorem emitGo_spec (lines : List String) (usecols : Option (List Int))
    (uninit : Nat → PyFloat) :
    ∀ (bl : List (Nat × Nat)) (h : Nat) (es : List (String × List (List PyFloat))) (hb : Nat),
      h ≤ lines.length → TDL.orderedB lines usecols h bl = true →
      TDL.emitGo lines usecols uninit bl h = .ok (es, hb) →
      es.map Prod.fst = TDL.specHeaders lines usecols h bl ∧
      h ≤ hb ∧ hb ≤ lines.length ∧
      concatL (List.zipWith (fun a b => a ++ b) (es.map Prod.fst)
        (bl.map (fun p => sliceStr lines (TDL.idx1 lines usecols p.1)
          (TDL.idx1 lines usecols p.2 + 1)))) = sliceStr lines h hb := by
  intro bl
  induction bl with
  | nil =>
    intro h es hb hhl _ hE
    simp only [TDL.emitGo, PRes.ok.injEq, Prod.mk.injEq] at hE
    obtain ⟨he, hh⟩ := hE
    subst he
    subst hh
    refine ⟨rfl, le_refl _, hhl, ?_⟩
    simp [TDL.specHeaders, sliceStr]
  | cons p rest ih =>
    intro h es hb hhl hord hE
    obtain ⟨db, de⟩ := p
    simp only [TDL.orderedB, Bool.and_eq_true, decide_eq_true_eq] at hord
    obtain ⟨⟨⟨⟨hdbm, hdem⟩, hdbde⟩, hhdb⟩, hordr⟩ := hord
    simp only [TDL.emitGo] at hE
    rw [if_pos (by simp only [Bool.and_eq_true, decide_eq_true_eq]; exact ⟨hdbm, hdem⟩)] at hE
    split at hE
    · exact absurd hE (by simp)
    · split at hE
      · exact absurd hE (by simp)
      · rename_i es' hb' hrec
        simp only [PRes.ok.injEq, Prod.mk.injEq] at hE
        obtain ⟨hes, hhb⟩ := hE
        subst hhb
        subst hes
        have hee : TDL.idx1 lines usecols de < lines.length := idx1_lt lines usecols de hdem
        have hbe : TDL.idx1 lines usecols db ≤ TDL.idx1 lines usecols de :=
          idx1_mono lines usecols db de hdbde hdem
        obtain ⟨hmap, hle1, hle2, hcat⟩ := ih (TDL.idx1 lines usecols de + 1) es' hb'
          (by omega) hordr hrec
        refine ⟨?_, by omega, hle2, ?_⟩
        · simp only [List.map_cons, TDL.specHeaders, hmap]
        · simp only [List.map_cons, List.zipWith_cons_cons, concatL]
          rw [hcat]
          rw [String.append_assoc]
          rw [sliceStr_comp lines (TDL.idx1 lines usecols db)
            (TDL.idx1 lines usecols de + 1) hb' (by omega) hle1]
          exact sliceStr_comp lines h (TDL.idx1 lines usecols db) hb' hhdb (by omega)

/-- C4 (amended): whenever `_findDataBlocks` completes and the accepted blocks
are non-overlapping and in source order (each block starts at or after the
current header position and its boundaries are ordered — a condition the
counterexample shows the pairing can violate), each emitted header is exactly
the verbatim source text between the previous accepted block's end (or the
file start) and this block's start, and concatenating, in order, every header
with the text of the lines of its block (plus the trailing header, if
emitted) reproduces the file byte-for-byte. -/
theorem c4_partition_roundtrip (minrows : Nat) (usecols : Option (List Int))
    (uninit : Nat → PyFloat) (lines : List String)
    (es : List (String × List (List PyFloat)))
    (hok : TDL.findDataBlocks minrows usecols uninit lines = .ok es)
    (hord : TDL.orderedB lines usecols 0 (TDL.begendList lines usecols minrows) = true) :
    (es.map Prod.fst).take (TDL.begendList lines usecols minrows).length =
      TDL.specHeaders lines usecols 0 (TDL.begendList lines usecols minrows) ∧
    TDL.rtOf minrows usecols uninit lines = some (concatL lines) := by
  have hok0 := hok
  simp only [TDL.findDataBlocks] at hok
  split at hok
  · exact absurd hok (by simp)
  · split at hok
    · exact absurd hok (by simp)
    · split at hok
      · exact absurd hok (by simp)
      · split at hok
        · exact absurd hok (by simp)
        · rename_i es0 hbeg hrec
          obtain ⟨hmap, hle1, hle2, hcat⟩ :=
            emitGo_spec lines usecols uninit _ 0 es0 hbeg (by omega) hord hrec
          have hlen0 := emitGo_len lines usecols uninit _ _ _ _ hrec
          simp only [PRes.ok.injEq] at hok
          subst hok
          have hbl : (es0.map Prod.fst).length =
              (TDL.begendList lines usecols minrows).length := by
            simp [hlen0]
          constructor
          · rw [List.map_append, ← hbl, List.take_left]
            exact hmap
          · unfold TDL.rtOf
            rw [hok0]
            show some _ = some _
            congr 1
            unfold TDL.blockTexts
            by_cases hbn : hbeg < lines.length
            · rw [if_pos hbn]
              rw [List.map_append, List.zipWith_append _ _ _ _ _ (by rw [hbl]; simp)]
              rw [concatL_append]
              have hz2 : concatL (List.zipWith (fun a b => a ++ b)
                  ([(sliceStr lines hbeg lines.length, ([] : List (List PyFloat)))].map Prod.fst)
                  [""]) = sliceStr lines hbeg lines.length := by
                simp [concatL]
              rw [hz2, hcat]
              rw [sliceStr_comp lines 0 hbeg lines.length (by omega) (by omega)]
              exact sliceStr_full lines
            · rw [if_neg hbn]
              have hbeq : hbeg = lines.length := by omega
              have hz : es0.map Prod.fst = es0.map Prod.fst ++ [] := by simp
              rw [List.append_nil, hz,
                List.zipWith_append _ _ _ _ _ (by rw [hbl]; simp)]
              rw [concatL_append]
              have hz2 : concatL (List.zipWith (fun (a : String) (b : String) => a ++ b)
                  ([] : List String) [""]) = "" := by
                simp [concatL]
              rw [hz2, hcat, hbeq]
              rw [sliceStr_full lines]
              simp [concatL]

/-- Witness for C4 on `linesW4` with `minrows = 2`: one clean block is
accepted, its header is the leading line, and the round-trip reproduces the
file. -/
theorem c4_partition_roundtrip_witness :
    (([("# h q\n", [[PyFloat.finite 0, PyFloat.finite 0],
        [PyFloat.finite 0, PyFloat.finite 0]])].map Prod.fst).take
        (TDL.begendList linesW4 none 2).length =
      TDL.specHeaders linesW4 none 0 (TDL.begendList linesW4 none 2) ∧
    TDL.rtOf 2 none uZ linesW4 = some (concatL linesW4)) :=
  c4_partition_roundtrip 2 none uZ linesW4
    [("# h q\n", [[PyFloat.finite 0, PyFloat.finite 0],
      [PyFloat.finite 0, PyFloat.finite 0]])]
    (by decide) (by decide)
